import Mathlib

/-!
Verification of the supervisord-TUI configuration / status core.

Shallow embedding, in Lean 4, of the configuration model and
state-reconciliation engine of the `god` repository (a Go TUI for
supervisord).  The Go sources embedded here are:

* `internal/supervisor/config.go` — configuration codec
  (`LoadConfig`, `parseProgramLine`, `parseBytes`, `parseEnvironment`,
  `GetProcessConfig`, `AddProgram`, `UpdateProgram`, `Save`,
  `writeProgramSection`, `formatBytes`, `formatEnvironment`);
* the supervisor client (`GetStatus`, `parseStatus`, `parseUptime`);
* `internal/ui/config_helper` editor parser (`parseConfigText`,
  `parseConfigLine`, and its own `parseBytes`/`formatBytes`);
* `internal/ui/model.go` (`InitialModelWithConfig` merge loop,
  `saveProcess`).

Modelling conventions:

* Go strings are modelled as Lean `String`s / `List Char`; all string
  functions (`strings.TrimSpace`, `strings.Split`, `strings.Fields`,
  `strings.Trim`, …) are re-implemented structurally on `List Char`
  so that they are easy to reason about.  The model is exact for
  ASCII data (Go operates on UTF-8 bytes; every input appearing in
  the claims is ASCII).
* `bufio.Scanner` with `bufio.ScanLines` is modelled faithfully,
  including its 64 KiB default token limit (`bufio.MaxScanTokenSize`):
  a line of 65536 or more bytes makes `Scan` stop and `Err` return
  `bufio.ErrTooLong`; lines scanned before that point are still
  delivered, and each delivered line has one trailing `'\r'` dropped.
* Go `int`/`int64` values are modelled as `Int` with explicit
  two's-complement wrapping (`wrap64`) at every operation where Go
  can overflow, and `strconv.Atoi`/`ParseInt` are modelled with their
  documented clamp-on-range-error behaviour.
* Go `map[string]string` is modelled as an association list
  (`List (String × String)`); map iteration order (unspecified in Go)
  is captured by quantifying over permutations of the list.
* `time.Duration` is an `Int` counting nanoseconds.
-/

namespace God

/-! ## Basic Go string operations, modelled on `List Char` -/

/-- The ASCII white-space characters recognised by `unicode.IsSpace`
(the model is restricted to ASCII; `strings.TrimSpace` and
`strings.Fields` use this predicate). -/
def goIsSpace (c : Char) : Bool :=
  c = ' ' || c = '\t' || c = '\n' || c = '\x0b' || c = '\x0c' || c = '\r'

/-- The character class `\s` of Go's `regexp` package
(`[\t\n\f\r ]`; note it does not contain `'\x0b'`). -/
def reIsSpace (c : Char) : Bool :=
  c = '\t' || c = '\n' || c = '\x0c' || c = '\r' || c = ' '

/-- ASCII decimal digit (`\d` in Go `regexp`). -/
def goIsDigit (c : Char) : Bool :=
  '0' ≤ c && c ≤ '9'

/-- Drop the characters of a cutset from the end of a list
(helper for `strings.Trim`-style functions). -/
def dropTrailing (p : Char → Bool) (l : List Char) : List Char :=
  (l.reverse.dropWhile p).reverse

/-- `strings.TrimSpace` (ASCII model): remove white space from both
ends. -/
def goTrimSpace (l : List Char) : List Char :=
  dropTrailing goIsSpace (l.dropWhile goIsSpace)

/-- `strings.Trim s cutset`: remove every leading and trailing
character belonging to `cutset` (all of them, not just one layer). -/
def goTrim (p : Char → Bool) (l : List Char) : List Char :=
  dropTrailing p (l.dropWhile p)

/-- `strings.HasPrefix` on character lists. -/
def goHasPrefix : List Char → List Char → Bool
  | [], _ => true
  | _ :: _, [] => false
  | p :: ps, c :: cs => p = c && goHasPrefix ps cs

/-- `strings.HasSuffix l suf`. -/
def goHasSuffix (l suf : List Char) : Bool :=
  goHasPrefix suf.reverse l.reverse

/-- `strings.Contains l pat` (substring search). -/
def goContains (l pat : List Char) : Bool :=
  if goHasPrefix pat l then true
  else match l with
    | [] => false
    | _ :: cs => goContains cs pat

/-- `strings.Split l sep` for a one-character separator `sep`
(Go's `strings.Split` with `n = -1`): always returns at least one
(possibly empty) field. -/
def splitChar (sep : Char) : List Char → List (List Char)
  | [] => [[]]
  | c :: cs =>
    match splitChar sep cs with
    | [] => [[]]
    | g :: gs => if c = sep then [] :: g :: gs else (c :: g) :: gs

/-- Join with a one-character separator (inverse of `splitChar`). -/
def joinChar (sep : Char) : List (List Char) → List Char
  | [] => []
  | [g] => g
  | g :: gs => g ++ sep :: joinChar sep gs

/-- `strings.Fields`: split around runs of white space, no empty
fields. -/
def goFields : List Char → List (List Char)
  | [] => []
  | c :: cs =>
    if goIsSpace c then goFields cs
    else
      match goFields cs with
      | [] => [[c]]
      | g :: gs =>
        match cs with
        | [] => [[c]]
        | d :: _ => if goIsSpace d then [c] :: g :: gs else (c :: g) :: gs

/-! ## Go integers

`int` on a 64-bit platform and `int64` are modelled as `Int` with
explicit two's-complement wrapping. -/

/-- Wrap an integer into the `int64` range (Go arithmetic overflows by
wrapping around two's complement). -/
def wrap64 (n : Int) : Int :=
  (n + 2 ^ 63) % 2 ^ 64 - 2 ^ 63

/-- Largest `int64` value. -/
def maxInt64 : Int := 2 ^ 63 - 1

/-- Numeric value of a list of decimal digits. -/
def digitsVal (l : List Char) : Nat :=
  l.foldl (fun acc c => acc * 10 + (c.toNat - '0'.toNat)) 0

/-- `strconv.Atoi` (= `ParseInt(s, 10, 64)` on a 64-bit platform):
returns the value Go returns together with `err == nil`.  On a
malformed input the value is `0`; on a range error the value is clamped to the
`int64` range and the error is non-nil. -/
def goAtoiRaw (l : List Char) : Int × Bool :=
  let signDigits : Bool × List Char :=
    match l with
    | '+' :: rest => (false, rest)
    | '-' :: rest => (true, rest)
    | _ => (false, l)
  let neg := signDigits.1
  let ds := signDigits.2
  if ds.isEmpty || !ds.all goIsDigit then (0, false)
  else
    let s : Int := if neg then -(digitsVal ds : Int) else (digitsVal ds : Int)
    if s < -(2 ^ 63) then (-(2 ^ 63), false)
    else if s > maxInt64 then (maxInt64, false)
    else (s, true)

/-- `strconv.Atoi` where the caller only uses the value when
`err == nil` (`if i, err := strconv.Atoi(v); err == nil { … }`). -/
def goAtoiValid (l : List Char) : Option Int :=
  let r := goAtoiRaw l
  if r.2 then some r.1 else none

/-- `strconv.Atoi` where the caller discards the error
(`n, _ := strconv.Atoi(v)`): range errors yield the clamped value. -/
def goAtoiLoose (l : List Char) : Int :=
  (goAtoiRaw l).1

/-! ## `bufio.Scanner` with `bufio.ScanLines`

The scanner delivers the input line by line (lines separated by
`'\n'`; a final empty segment after a trailing `'\n'` is not
delivered; one trailing `'\r'` is dropped from each delivered line).
Its buffer is capped at `bufio.MaxScanTokenSize = 65536` bytes: when a
line of at least that many bytes is encountered, `Scan` returns
`false` and `Err` returns `bufio.ErrTooLong`; the lines before it have
already been delivered. -/

/-- `bufio.MaxScanTokenSize`. -/
def maxScanTokenSize : Nat := 65536

/-- Drop one trailing `'\r'` (the `dropCR` helper of
`bufio.ScanLines`). -/
def dropCR (l : List Char) : List Char :=
  if l.getLast? = some '\r' then l.dropLast else l

/-- The raw line segments of the input: split at `'\n'`, with a final
empty segment (produced by a trailing newline / empty input) removed,
since at EOF the scanner produces no empty token. -/
def rawSegments (l : List Char) : List (List Char) :=
  let segs := splitChar '\n' l
  if segs.getLast? = some [] then segs.dropLast else segs

/-- `bufio.Scanner`/`ScanLines` over a string: the delivered lines and
whether scanning stopped with `bufio.ErrTooLong`. -/
def scanLines (l : List Char) : List (List Char) × Bool :=
  let segs := rawSegments l
  ((segs.takeWhile (fun s => s.length < maxScanTokenSize)).map dropCR,
   segs.any (fun s => maxScanTokenSize ≤ s.length))

/-! ## The configuration data model (`process.go`)

`ProcessConfig` mirrors the Go struct field by field.  Go `int` fields
are `Int`, `int64` fields are `Int`, and the `map[string]string`
environment is an association list (iteration order of the Go map is
unspecified; the list order stands for one such order). -/

structure ProcessConfig where
  name : String := ""
  command : String := ""
  directory : String := ""
  user : String := ""
  autostart : Bool := false
  autorestart : Bool := false
  startSecs : Int := 0
  startRetries : Int := 0
  stdoutLogfile : String := ""
  stderrLogfile : String := ""
  stdoutLogfileMaxBytes : Int := 0
  stdoutLogfileBackups : Int := 0
  stderrLogfileMaxBytes : Int := 0
  stderrLogfileBackups : Int := 0
  environment : List (String × String) := []
  priority : Int := 0
  stopSignal : String := ""
  stopWaitSecs : Int := 0
  deriving Repr, DecidableEq

/-! ## ByteSize codec (`parseBytes` / `formatBytes`, config.go) -/

/-- The anchored regex `^(\d+)(KB|MB|GB)?$` of `parseBytes`: the match
exists iff the string is a non-empty digit run followed by one of the
three units or nothing (the units start with non-digits, so the digit
run is forced to be maximal).  Returns the digit run and the unit
multiplier. -/
def byteRegexMatch (l : List Char) : Option (List Char × Nat) :=
  let ds := l.takeWhile goIsDigit
  if ds.isEmpty then none
  else
    match l.drop ds.length with
    | [] => some (ds, 1)
    | ['K', 'B'] => some (ds, 1024)
    | ['M', 'B'] => some (ds, 1024 * 1024)
    | ['G', 'B'] => some (ds, 1024 * 1024 * 1024)
    | _ => none

/-- `strings.ToUpper` (ASCII model). -/
def goToUpper (l : List Char) : List Char :=
  l.map Char.toUpper

/-- `parseBytes` (config.go): trim and upper-case, match
`^(\d+)(KB|MB|GB)?$`; no match yields 0.  The digits are read with
`strconv.ParseInt(…, 10, 64)` whose error is discarded (range errors
clamp to `MaxInt64`), and the unit multiplications are `int64`
multiplications, which wrap on overflow. -/
def parseBytesL (l : List Char) : Int :=
  let v := goToUpper (goTrimSpace l)
  match byteRegexMatch v with
  | none => 0
  | some (ds, mult) =>
    let size : Int := if (digitsVal ds : Int) > maxInt64 then maxInt64 else (digitsVal ds : Int)
    wrap64 (size * (mult : Int))

/-- `parseBytes` on a `String` (the signature of the Go function). -/
def parseBytes (s : String) : Int := parseBytesL s.data

/-- `parseBytes` of `config_helper.go` (the editor helper): identical
except for an explicit early return on the empty string. -/
def parseBytesUi (s : String) : Int :=
  let v := goToUpper (goTrimSpace s.data)
  if v.isEmpty then 0
  else
    match byteRegexMatch v with
    | none => 0
    | some (ds, mult) =>
      let size : Int := if (digitsVal ds : Int) > maxInt64 then maxInt64 else (digitsVal ds : Int)
      wrap64 (size * (mult : Int))

/-- `formatBytes` (config.go): largest unit among B/KB/MB/GB, with
truncating (toward zero, as in Go) integer division. -/
def formatBytes (bytes : Int) : String :=
  if bytes < 1024 then toString bytes ++ "B"
  else if bytes < 1024 * 1024 then toString (Int.tdiv bytes 1024) ++ "KB"
  else if bytes < 1024 * 1024 * 1024 then toString (Int.tdiv bytes (1024 * 1024)) ++ "MB"
  else toString (Int.tdiv bytes (1024 * 1024 * 1024)) ++ "GB"

/-- `formatBytes` of `config_helper.go`: identical except that 0 is
rendered as the empty string. -/
def formatBytesUi (bytes : Int) : String :=
  if bytes = 0 then ""
  else if bytes < 1024 then toString bytes ++ "B"
  else if bytes < 1024 * 1024 then toString (Int.tdiv bytes 1024) ++ "KB"
  else if bytes < 1024 * 1024 * 1024 then toString (Int.tdiv bytes (1024 * 1024)) ++ "MB"
  else toString (Int.tdiv bytes (1024 * 1024 * 1024)) ++ "GB"

/-! ## KeyValue-list codec (`parseEnvironment` / `formatEnvironment`) -/

/-- The quote characters stripped by `strings.Trim(value, "\"'")`. -/
def isQuoteChar (c : Char) : Bool :=
  c = '"' || c = '\''

/-- Insert into the Go map model: overwrite the value if the key is
present, otherwise add the pair. -/
def envInsert (k v : String) : List (String × String) → List (String × String)
  | [] => [(k, v)]
  | (k0, v0) :: rest =>
    if k0 = k then (k0, v) :: rest else (k0, v0) :: envInsert k v rest

/-- One iteration of the `parseEnvironment` pair loop: trim the pair,
skip it when empty, split it at the first `'='`
(`strings.SplitN(pair, "=", 2)`; pairs without `'='` are ignored),
trim key and value, and write into the map. -/
def envPairStep (env : List (String × String)) (pair : List Char) : List (String × String) :=
  let p := goTrimSpace pair
  if p.isEmpty then env
  else
    match splitChar '=' p with
    | [] => env
    | [_] => env
    | k :: rest =>
      envInsert (String.mk (goTrimSpace k)) (String.mk (goTrimSpace (joinChar '=' rest))) env

/-- The body of `parseEnvironment` after the quote stripping: split on
`','` and run the pair loop. -/
def parseEnvCore (l : List Char) (env : List (String × String)) : List (String × String) :=
  (splitChar ',' l).foldl envPairStep env

/-- `parseEnvironment` (config.go): strip all leading/trailing quote
characters (`strings.Trim(value, "\"'")`), then parse the pair list
into the given map. -/
def parseEnvironmentL (l : List Char) (env : List (String × String)) : List (String × String) :=
  parseEnvCore (goTrim isQuoteChar l) env

/-- `parseEnvironment` on a `String`. -/
def parseEnvironment (value : String) (env : List (String × String)) : List (String × String) :=
  parseEnvironmentL value.data env

/-- `formatEnvironment`: join `key=value` pairs with `','`, in the
iteration order of the map (modelled by the list order). -/
def formatEnvironment (env : List (String × String)) : String :=
  String.mk (joinChar ',' (env.map fun kv => kv.1.data ++ '=' :: kv.2.data))

/-! ## Status text parser (`parseStatus`, `parseUptime`)

From the supervisor client: `parseStatus` parses the output of
`supervisorctl status`, one process per line, extracting pid and
uptime with the regexes `pid\s+(\d+)` and `uptime\s+(.+)`;
`parseUptime` understands `"<days> days, H:MM:SS"` (via the regex
`(\d+)\s+days?,\s+(\d+):(\d+):(\d+)`) and `"H:MM:SS"` (a 3-field
colon split). -/

/-- A runtime record (`Process` in `process.go`): `Uptime` is a
`time.Duration`, i.e. an `int64` number of nanoseconds. -/
structure GoProcess where
  name : String
  status : String
  pid : Int
  uptime : Int
  config : Option ProcessConfig := none
  deriving Repr, DecidableEq

/-- Nanoseconds per second / minute / hour (`time.Second` etc.). -/
def nsSecond : Int := 1000000000
def nsMinute : Int := 60 * nsSecond
def nsHour : Int := 60 * nsMinute

/-- Try the regex `pid\s+(\d+)` at the head of `l`: literal `pid`,
one or more `\s`, then a maximal run of at least one digit (`\s` and
`\d` are disjoint character classes, so greedy matching is forced and
the capture is the maximal digit run). -/
def pidMatchAt (l : List Char) : Option (List Char) :=
  match l with
  | 'p' :: 'i' :: 'd' :: rest =>
    let sp := rest.takeWhile reIsSpace
    if sp.isEmpty then none
    else
      let after := rest.drop sp.length
      let ds := after.takeWhile goIsDigit
      if ds.isEmpty then none else some ds
  | _ => none

/-- Try the regex `uptime\s+(.+)` at the head of `l`.  `\s+` is
greedy; if everything after the spaces is empty the engine backtracks
one space into `(.+)` (`.` matches a space), so when the tail consists
of `k ≥ 2` spaces the capture is the last space, and with `k = 1`
spaces and nothing after there is no match at this position. -/
def uptimeMatchAt (l : List Char) : Option (List Char) :=
  match l with
  | 'u' :: 'p' :: 't' :: 'i' :: 'm' :: 'e' :: rest =>
    let k := (rest.takeWhile reIsSpace).length
    if k = 0 then none
    else if k < rest.length then some (rest.drop k)
    else if 2 ≤ k then some (rest.drop (k - 1))
    else none
  | _ => none

/-- `regexp.FindStringSubmatch`: the leftmost position at which the
per-position matcher succeeds. -/
def findLeftmost {α : Type} (f : List Char → Option α) : List Char → Option α
  | [] => f []
  | l@(_ :: cs) =>
    match f l with
    | some a => some a
    | none => findLeftmost f cs

/-- Try the regex `(\d+)\s+days?,\s+(\d+):(\d+):(\d+)` at the head of
`l`.  Each quantified class is followed by a disjoint literal, so
greedy matching is forced everywhere except at `days?,`: after
`"day"`, the optional `'s'` is taken only when it is followed by the
`','`. -/
def daysMatchAt (l : List Char) : Option (List Char × List Char × List Char × List Char) :=
  let d1 := l.takeWhile goIsDigit
  if d1.isEmpty then none
  else
    let r1 := l.drop d1.length
    let sp1 := r1.takeWhile reIsSpace
    if sp1.isEmpty then none
    else
      match r1.drop sp1.length with
      | 'd' :: 'a' :: 'y' :: rest =>
        let rest2 :=
          match rest with
          | 's' :: ',' :: r => some r
          | ',' :: r => some r
          | _ => none
        match rest2 with
        | none => none
        | some r2 =>
          let sp2 := r2.takeWhile reIsSpace
          if sp2.isEmpty then none
          else
            let r3 := r2.drop sp2.length
            let d2 := r3.takeWhile goIsDigit
            if d2.isEmpty then none
            else
              match r3.drop d2.length with
              | ':' :: r4 =>
                let d3 := r4.takeWhile goIsDigit
                if d3.isEmpty then none
                else
                  match r4.drop d3.length with
                  | ':' :: r5 =>
                    let d4 := r5.takeWhile goIsDigit
                    if d4.isEmpty then none else some (d1, d2, d3, d4)
                  | _ => none
              | _ => none
      | _ => none

/-- `parseUptime` (on the character list of the uptime string).
Duration arithmetic is `int64` arithmetic and wraps. -/
def parseUptimeL (l : List Char) : Int :=
  let u := goTrimSpace l
  let colonCase : Int :=
    match splitChar ':' u with
    | [h, m, s] =>
      wrap64 (wrap64 (wrap64 (goAtoiLoose h * nsHour) + wrap64 (goAtoiLoose m * nsMinute))
              + wrap64 (goAtoiLoose s * nsSecond))
    | _ => 0
  if goContains u ['d', 'a', 'y', 's'] then
    match findLeftmost daysMatchAt u with
    | some (d, h, m, s) =>
      wrap64 (wrap64 (wrap64 (wrap64 (wrap64 (goAtoiLoose d * 24) * nsHour)
              + wrap64 (goAtoiLoose h * nsHour)) + wrap64 (goAtoiLoose m * nsMinute))
              + wrap64 (goAtoiLoose s * nsSecond))
    | none => colonCase
  else colonCase

/-- `parseUptime` on a `String`. -/
def parseUptime (s : String) : Int := parseUptimeL s.data

/-- One iteration of the `parseStatus` loop on an already-scanned
line: blank lines and lines with fewer than two white-space-separated
fields produce no record; otherwise the first field is the name, the
second the status, and — when the line contains the substring
`"pid"` — pid and uptime are extracted by regex. -/
def parseStatusLine (l : List Char) : Option GoProcess :=
  let line := goTrimSpace l
  if line.isEmpty then none
  else
    match goFields line with
    | p0 :: p1 :: _ =>
      let pid : Int :=
        if goContains line ['p', 'i', 'd'] then
          match findLeftmost pidMatchAt line with
          | some ds =>
            match goAtoiValid ds with
            | some p => p
            | none => 0
          | none => 0
        else 0
      let uptime : Int :=
        if goContains line ['p', 'i', 'd'] then
          match findLeftmost uptimeMatchAt line with
          | some cap => parseUptimeL cap
          | none => 0
        else 0
      some { name := String.mk p0, status := String.mk p1, pid := pid, uptime := uptime }
    | _ => none

/-- `parseStatus`: scan the output line by line; the second component
is whether the call returns a non-nil error (`scanner.Err()`, which
for a `strings.Reader` can only be `bufio.ErrTooLong`). -/
def parseStatus (output : String) : List GoProcess × Bool :=
  let scanned := scanLines output.data
  (scanned.1.filterMap parseStatusLine, scanned.2)

/-! ## Configuration codec (`LoadConfig`, `parseProgramLine`) -/

/-- `strings.SplitN(line, "=", 2)`: the part before the first `'='`
and the rest (re-joined, since later `'='` signs stay in the value);
`none` when the line contains no `'='`. -/
def splitKeyValue (l : List Char) : Option (List Char × List Char) :=
  match splitChar '=' l with
  | [] => none
  | [_] => none
  | k :: rest => some (k, joinChar '=' rest)

/-- `strings.ToLower` (ASCII model). -/
def goToLower (l : List Char) : List Char :=
  l.map Char.toLower

/-- `parseProgramLine` (config.go): set the field selected by the key
of a `key=value` directive; keys and values are trimmed; boolean
directives are true iff the lower-cased value is `"true"`; integer
directives are set only when `strconv.Atoi` succeeds; byte-size
directives go through `parseBytes`; `environment` goes through
`parseEnvironment` into the definition's existing map.  Unknown keys
(and lines without `'='`) are ignored.

The switch of `parseConfigLine` (config_helper.go) is identical except
that it calls the helper file's own `parseBytes`; the byte parser is a
parameter so that both switches share this definition. -/
def applyDirectiveWith (pb : List Char → Int) (key value : List Char) (c : ProcessConfig) :
    ProcessConfig :=
  if key = "command".data then { c with command := String.mk value }
  else if key = "directory".data then { c with directory := String.mk value }
  else if key = "user".data then { c with user := String.mk value }
  else if key = "autostart".data then { c with autostart := goToLower value = "true".data }
  else if key = "autorestart".data then { c with autorestart := goToLower value = "true".data }
  else if key = "startsecs".data then
    match goAtoiValid value with
    | some i => { c with startSecs := i }
    | none => c
  else if key = "startretries".data then
    match goAtoiValid value with
    | some i => { c with startRetries := i }
    | none => c
  else if key = "stdout_logfile".data then { c with stdoutLogfile := String.mk value }
  else if key = "stderr_logfile".data then { c with stderrLogfile := String.mk value }
  else if key = "stdout_logfile_maxbytes".data then
    { c with stdoutLogfileMaxBytes := pb value }
  else if key = "stdout_logfile_backups".data then
    match goAtoiValid value with
    | some i => { c with stdoutLogfileBackups := i }
    | none => c
  else if key = "stderr_logfile_maxbytes".data then
    { c with stderrLogfileMaxBytes := pb value }
  else if key = "stderr_logfile_backups".data then
    match goAtoiValid value with
    | some i => { c with stderrLogfileBackups := i }
    | none => c
  else if key = "environment".data then
    { c with environment := parseEnvironmentL value c.environment }
  else if key = "priority".data then
    match goAtoiValid value with
    | some i => { c with priority := i }
    | none => c
  else if key = "stopsignal".data then { c with stopSignal := String.mk value }
  else if key = "stopwaitsecs".data then
    match goAtoiValid value with
    | some i => { c with stopWaitSecs := i }
    | none => c
  else c

/-- The switch of `parseProgramLine` (config.go). -/
def applyDirective (key value : List Char) (c : ProcessConfig) : ProcessConfig :=
  applyDirectiveWith parseBytesL key value c

/-- The switch of `parseConfigLine` (config_helper.go). -/
def applyDirectiveUi (key value : List Char) (c : ProcessConfig) : ProcessConfig :=
  applyDirectiveWith (fun v => parseBytesUi (String.mk v)) key value c

/-- `parseProgramLine` on a whole (already trimmed) line. -/
def parseProgramLine (line : List Char) (c : ProcessConfig) : ProcessConfig :=
  match splitKeyValue line with
  | none => c
  | some (k, v) => applyDirective (goTrimSpace k) (goTrimSpace v) c

/-- A trimmed line is a `[program:<name>]` header when it has the
prefix `"[program:"` and the suffix `"]"`. -/
def isProgramHeader (t : List Char) : Bool :=
  goHasPrefix "[program:".data t && goHasSuffix t "]".data

/-- The name of a `[program:<name>]` header
(`strings.TrimPrefix`/`TrimSuffix`). -/
def headerName (t : List Char) : String :=
  String.mk ((t.drop 9).dropLast)

/-- A trimmed line is skipped by the config scanners when it is empty
or a `;`/`#` comment. -/
def isSkippedLine (t : List Char) : Bool :=
  t.isEmpty || goHasPrefix ";".data t || goHasPrefix "#".data t

/-- One iteration of the `LoadConfig` loop.  The state is the list of
flushed definitions plus the definition currently being accumulated
(`currentProgram`; `inProgramSection` is true exactly when it is
non-nil, so it is not tracked separately).  A new `[program:…]` header
flushes the current definition and starts a fresh one; any other
bracketed line flushes and leaves the section; inside a section other
lines are directives. -/
def loadStep (st : List ProcessConfig × Option ProcessConfig) (line : List Char) :
    List ProcessConfig × Option ProcessConfig :=
  let t := goTrimSpace line
  if isSkippedLine t then st
  else if isProgramHeader t then
    (st.1 ++ st.2.toList, some { name := headerName t })
  else
    match st.2 with
    | some cur =>
      if goHasPrefix "[".data t then (st.1 ++ [cur], none)
      else (st.1, some (parseProgramLine t cur))
    | none => st

/-- The definition list produced by the `LoadConfig` loop over a list
of scanned lines (the final pending definition is flushed at EOF). -/
def loadConfigLines (ls : List (List Char)) : List ProcessConfig :=
  let st := ls.foldl loadStep ([], none)
  st.1 ++ st.2.toList

/-- A supervisord configuration (`Config` in config.go): path,
ordered definitions, and the raw scanned lines. -/
structure Config where
  path : String
  programs : List ProcessConfig
  rawLines : List String
  deriving Repr, DecidableEq

/-- `LoadConfig` on the contents of the file (the `os.Open` error path
is outside the model; the remaining error source is `scanner.Err()`,
i.e. a 64 KiB-or-longer line). -/
def loadConfigText (path : String) (content : String) : Except String Config :=
  let scanned := scanLines content.data
  if scanned.2 then .error "error reading config file: bufio.Scanner: token too long"
  else
    .ok { path := path,
          programs := loadConfigLines scanned.1,
          rawLines := scanned.1.map String.mk }

/-- `GetProcessConfig`: first definition whose name is exactly
`name`. -/
def getProcessConfig (c : Config) (name : String) : Option ProcessConfig :=
  c.programs.find? (fun p => p.name = name)

/-- `AddProgram`: append unconditionally. -/
def addProgram (c : Config) (p : ProcessConfig) : Config :=
  { c with programs := c.programs ++ [p] }

/-- The loop of `UpdateProgram` on the definition list: replace the
first definition named `name` by `p` with `p`'s name overwritten to
`name`; if no definition matches, append `p` unchanged. -/
def updateProgramList (name : String) (p : ProcessConfig) : List ProcessConfig → List ProcessConfig
  | [] => [p]
  | q :: rest =>
    if q.name = name then { p with name := name } :: rest
    else q :: updateProgramList name p rest

/-- `UpdateProgram`. -/
def updateProgram (c : Config) (name : String) (p : ProcessConfig) : Config :=
  { c with programs := updateProgramList name p c.programs }

/-! ## Configuration serialisation (`Save` / `writeProgramSection`) -/

/-- Go's `fmt.Sprintf("%v", b)` for a bool. -/
def goBool (b : Bool) : String :=
  if b then "true" else "false"

/-- The lines written by `writeProgramSection` for one definition, in
order; a field is emitted only when non-empty / non-zero, except
`autostart`/`autorerestart` which are always written. -/
def programLines (p : ProcessConfig) : List String :=
  ["[program:" ++ p.name ++ "]"]
  ++ (if p.command ≠ "" then ["command=" ++ p.command] else [])
  ++ (if p.directory ≠ "" then ["directory=" ++ p.directory] else [])
  ++ (if p.user ≠ "" then ["user=" ++ p.user] else [])
  ++ ["autostart=" ++ goBool p.autostart, "autorestart=" ++ goBool p.autorestart]
  ++ (if p.startSecs > 0 then ["startsecs=" ++ toString p.startSecs] else [])
  ++ (if p.startRetries > 0 then ["startretries=" ++ toString p.startRetries] else [])
  ++ (if p.stdoutLogfile ≠ "" then ["stdout_logfile=" ++ p.stdoutLogfile] else [])
  ++ (if p.stderrLogfile ≠ "" then ["stderr_logfile=" ++ p.stderrLogfile] else [])
  ++ (if p.stdoutLogfileMaxBytes > 0 then
        ["stdout_logfile_maxbytes=" ++ formatBytes p.stdoutLogfileMaxBytes] else [])
  ++ (if p.stdoutLogfileBackups > 0 then
        ["stdout_logfile_backups=" ++ toString p.stdoutLogfileBackups] else [])
  ++ (if p.stderrLogfileMaxBytes > 0 then
        ["stderr_logfile_maxbytes=" ++ formatBytes p.stderrLogfileMaxBytes] else [])
  ++ (if p.stderrLogfileBackups > 0 then
        ["stderr_logfile_backups=" ++ toString p.stderrLogfileBackups] else [])
  ++ (if p.environment ≠ [] then ["environment=" ++ formatEnvironment p.environment] else [])
  ++ (if p.priority > 0 then ["priority=" ++ toString p.priority] else [])
  ++ (if p.stopSignal ≠ "" then ["stopsignal=" ++ p.stopSignal] else [])
  ++ (if p.stopWaitSecs > 0 then ["stopwaitsecs=" ++ toString p.stopWaitSecs] else [])

/-- The blocks of a definition list, separated by one blank line
(`Config.Save` writes `"\n"` between blocks). -/
def serializeBlocks : List ProcessConfig → List String
  | [] => []
  | [p] => programLines p
  | p :: rest => programLines p ++ "" :: serializeBlocks rest

/-- All lines written by `Config.Save`. -/
def serializeLines (c : Config) : List String :=
  serializeBlocks c.programs

/-- Terminate every line with `'\n'` (each `WriteString` in
`writeProgramSection` ends in `\n`). -/
def unlinesL (ls : List (List Char)) : List Char :=
  ls.foldr (fun l acc => l ++ '\n' :: acc) []

/-- The file content written by `Config.Save`. -/
def serializeConfig (c : Config) : String :=
  String.mk (unlinesL ((serializeLines c).map String.data))

/-! ## Supervisor control gateway (`GetStatus`) -/

/-- The substring supervisorctl prints when the `[supervisorctl]`
section is missing. -/
def missingSectionMsg : String := "does not include supervisorctl section"

/-- The errors `GetStatus` can return. -/
inductive StatusErr where
  /-- The raw `cmd.Run()` error, returned together with the parsed
  records. -/
  | execErr (msg : String)
  /-- "supervisord config is missing [supervisorctl] section …"
  (carries the detected socket path). -/
  | missingSection (socketPath : String)
  /-- "supervisord is not running or socket not found …". -/
  | daemonDown
  /-- "failed to get status: …". -/
  | statusFailed (errStr : String)
  /-- The `parseStatus` scanner error. -/
  | scanTooLong
  deriving Repr, DecidableEq

/-- `GetStatus`, as a function of the external command's separated
stdout and stderr and of its `Run` error (`none` = exit status 0).
`DetectSocketPath` probes the filesystem and is passed in as
`socketPath`. -/
def getStatus (stdoutStr stderrStr : String) (cmdErr : Option String) (socketPath : String) :
    List GoProcess × Option StatusErr :=
  let parsed := parseStatus stdoutStr
  let processes := parsed.1
  if processes.length > 0 then
    if stderrStr ≠ "" ∧ ¬ goContains stderrStr.data missingSectionMsg.data then
      (processes, none)
    else
      match cmdErr with
      | some m => (processes, some (.execErr m))
      | none => (processes, none)
  else
    match cmdErr with
    | some _ =>
      let errStr := if stderrStr ≠ "" then stderrStr else stdoutStr
      if goContains errStr.data missingSectionMsg.data then
        ([], some (.missingSection socketPath))
      else if goContains errStr.data "connection refused".data
              || goContains errStr.data "No such file".data then
        ([], some .daemonDown)
      else ([], some (.statusFailed errStr))
    | none =>
      if parsed.2 then (processes, some .scanTooLong) else (processes, none)

/-! ## Edit-buffer parser (`parseConfigText`, config_helper.go) -/

/-- The in-section directive handling of `parseConfigText`:
`strings.SplitN(line, "=", 2)`, skip when there is no `'='`, trim key
and value, dispatch through `parseConfigLine`. -/
def parseEditorLine (line : List Char) (c : ProcessConfig) : ProcessConfig :=
  match splitKeyValue line with
  | none => c
  | some (k, v) => applyDirectiveUi (goTrimSpace k) (goTrimSpace v) c

/-- The scan loop of `parseConfigText` over the scanned lines.
Returns the accumulated definition, the final `inProgramSection`
flag, and whether the loop exited through `break`.

Note the order of the checks, taken from the source: the
`[program:…]` header test comes **before** the leaving-the-section
test, so a second `[program:…]` header does not break the loop — it
overwrites `config.Name` and parsing continues into the same
definition.  Only a bracketed line that is not a well-formed
`[program:…]` header breaks. -/
def scanCfg (c : ProcessConfig) (inSec : Bool) : List (List Char) → ProcessConfig × Bool × Bool
  | [] => (c, inSec, false)
  | l :: ls =>
    let t := goTrimSpace l
    if isSkippedLine t then scanCfg c inSec ls
    else if isProgramHeader t then scanCfg { c with name := headerName t } true ls
    else if inSec && goHasPrefix "[".data t then (c, inSec, true)
    else if inSec then scanCfg (parseEditorLine t c) inSec ls
    else scanCfg c inSec ls

/-- `parseConfigText`: scan the editor text; after the loop,
`scanner.Err()` is checked first (it is nil when the loop exited via
`break` before reaching an over-long line), then the name must be
non-empty. -/
def parseConfigText (text : String) : Except String ProcessConfig :=
  let scanned := scanLines text.data
  let r := scanCfg {} false scanned.1
  if ¬ r.2.2 ∧ scanned.2 then
    .error "error reading config: bufio.Scanner: token too long"
  else if r.1.name = "" then .error "program name is required"
  else .ok r.1

/-! ## Reconciler (the merge loop of `InitialModelWithConfig` /
`refreshProcesses`, model.go) -/

/-- `strings.EqualFold` (ASCII model): equality up to case folding. -/
def goEqualFold : List Char → List Char → Bool
  | [], [] => true
  | a :: as, b :: bs => a.toLower = b.toLower && goEqualFold as bs
  | _, _ => false

/-- The definition attached to one runtime record: exact name match
via `GetProcessConfig` first, then the first definition matching
case-insensitively (`strings.EqualFold`). -/
def findMergeConfig (cfg : Config) (name : String) : Option ProcessConfig :=
  match getProcessConfig cfg name with
  | some p => some p
  | none => cfg.programs.find? (fun prog => goEqualFold prog.name.data name.data)

/-- The merge loop: for each runtime record, attach the found
definition (`proc.Config = cfg`); records with no match keep their
previous (nil) definition.  One `Process` per runtime record. -/
def mergeProcesses (cfg : Config) (procs : List GoProcess) : List GoProcess :=
  procs.map fun pr =>
    match findMergeConfig cfg pr.name with
    | some c => { pr with config := some c }
    | none => pr

/-! ## The save transaction (`saveProcess`, model.go)

`saveProcess` is modelled as a pure state transition.  The state keeps
the fields of `Model` the transaction touches: the in-memory
`Config`, the configuration file's content (file I/O is modelled as a
string field, so `Config.Save` and the re-`LoadConfig` cannot fail for
I/O reasons — the remaining `LoadConfig` error source is its
scanner), the UI mode, the displayed error and the selected process's
name.  The two gateway calls (`Reread`, `Update`) are external; their
outcomes are inputs of the transition (`none` = success).  On the
all-success path the trailing `refreshProcesses` reloads the same
file content, which yields the configuration that was just loaded, and
does not touch the error field; the process list and selection it
refreshes are outside this model. -/

/-- The UI modes of `model.go`. -/
inductive Mode where
  | list | search | edit | add | delete | viewLogs
  deriving Repr, DecidableEq

/-- The slice of the `Model` state touched by `saveProcess`. -/
structure UiModel where
  config : Config
  configPath : String
  fileContent : String
  mode : Mode
  err : Option String
  selected : Option String
  deriving Repr, DecidableEq

/-- The mutation step of `saveProcess`: in `ModeAdd` the parsed
definition is appended (`AddProgram`); otherwise the definition
replaces the selected process's entry (`UpdateProgram`), or nothing
happens when no process is selected. -/
def saveApply (m : UiModel) (p : ProcessConfig) : Config :=
  if m.mode = Mode.add then addProgram m.config p
  else
    match m.selected with
    | some oldName => updateProgram m.config oldName p
    | none => m.config

/-- `saveProcess`: parse the editor text; apply add/update to the
in-memory config; write the file (`Config.Save`); re-parse the written
file (`LoadConfig`), replacing the in-memory config on success;
then `Reread` and `Update`.  Each failure after the editor parse sets
`m.err`, switches to `ModeList` and returns — nothing is rolled
back. -/
def saveProcess (m : UiModel) (editorText : String) (rereadErr updateErr : Option String) :
    UiModel :=
  match parseConfigText editorText with
  | .error _ => m
  | .ok p =>
    let cfg1 := saveApply m p
    let content := serializeConfig cfg1
    match loadConfigText m.configPath content with
    | .error e =>
      { m with config := cfg1, fileContent := content, err := some e, mode := Mode.list }
    | .ok newCfg =>
      match rereadErr with
      | some e =>
        { m with config := newCfg, fileContent := content, err := some e, mode := Mode.list }
      | none =>
        match updateErr with
        | some e =>
          { m with config := newCfg, fileContent := content, err := some e, mode := Mode.list }
        | none =>
          { m with config := newCfg, fileContent := content, mode := Mode.list }

/-! ## Statement-support definitions

Definitions used only to state the verified properties: the
spec-modelled normal form of a byte-size string, the spec-modelled
one-layer quote stripping, and the name/header projections. -/

/-- Modelled from the spec (§4.2 `Format`): canonical rendering of a
byte quantity — the largest unit among B/KB/MB/GB that leaves a
non-zero value, with truncating division.  Stated over `Nat`, i.e.
over the exact mathematical value of the size string. -/
def normalizedBytes (v : Nat) : String :=
  if v < 1024 then toString v ++ "B"
  else if v < 1024 * 1024 then toString (v / 1024) ++ "KB"
  else if v < 1024 * 1024 * 1024 then toString (v / (1024 * 1024)) ++ "MB"
  else toString (v / (1024 * 1024 * 1024)) ++ "GB"

/-- Modelled from the spec (§4.3 `Parse`, and the C5 claim): strip
exactly one layer of a leading and of a trailing quote character —
at most one character from each end. -/
def stripOneQuoteLayer (l : List Char) : List Char :=
  let l1 :=
    match l with
    | c :: rest => if isQuoteChar c then rest else l
    | [] => l
  match l1.getLast? with
  | some c => if isQuoteChar c then l1.dropLast else l1
  | none => l1

/-- The environment parser as the C5 claim describes it: one quote
layer stripped, then the ordinary pair parsing. -/
def parseEnvironmentOneLayer (value : String) (env : List (String × String)) :
    List (String × String) :=
  parseEnvCore (stripOneQuoteLayer value.data) env

/-- The names of a definition list, in order. -/
def namesOfList (l : List ProcessConfig) : List String :=
  l.map fun p => p.name

/-- The `[program:<name>]` name contributed by one scanned line
(`none` for every non-header line). -/
def lineHeaderOf (l : List Char) : Option String :=
  let t := goTrimSpace l
  if isProgramHeader t then some (headerName t) else none

/-- The header names of a list of scanned lines, in order. -/
def headerNamesOf (ls : List (List Char)) : List String :=
  ls.filterMap lineHeaderOf

/-- A scanned line round-trips through the scanner untouched: it
contains no newline, is below the scanner's token limit, and does not
end in `'\r'`. -/
def lineOK (l : List Char) : Prop :=
  '\n' ∉ l ∧ l.length < maxScanTokenSize ∧ l.getLast? ≠ some '\r'

/-- Every line `Config.Save` would write for this configuration is a
well-formed single line (`lineOK`). -/
def serializeOK (c : Config) : Prop :=
  ∀ l ∈ serializeLines c, lineOK l.data

/-- A key/value pair that survives the `environment` codec: no comma
in key or value, no `'='` in the key, key and value invariant under
`TrimSpace`, the key does not start with a quote character and the
value does not end with one. -/
abbrev envTame (kv : String × String) : Prop :=
  ',' ∉ kv.1.data ∧ ',' ∉ kv.2.data ∧ '=' ∉ kv.1.data ∧
  goTrimSpace kv.1.data = kv.1.data ∧ goTrimSpace kv.2.data = kv.2.data ∧
  kv.1.data.head?.all (fun c => ! isQuoteChar c) = true ∧
  kv.2.data.getLast?.all (fun c => ! isQuoteChar c) = true

/-- The uptime string matches the `"<days> days, H:MM:SS"` branch of
`parseUptime`: it contains the substring `"days"` and the regex
`(\d+)\s+days?,\s+(\d+):(\d+):(\d+)` finds a match. -/
def daysGrammarMatch (u : List Char) : Bool :=
  goContains u "days".data && (findLeftmost daysMatchAt u).isSome

/-! ## Helper lemmas about the string model -/

theorem splitChar_ne_nil (sep : Char) (l : List Char) : splitChar sep l ≠ [] := by
  cases l with
  | nil => simp [splitChar]
  | cons c cs =>
    simp only [splitChar]
    cases splitChar sep cs with
    | nil => simp
    | cons g gs =>
      by_cases h : c = sep <;> simp [h]

theorem splitChar_of_not_mem {sep : Char} {l : List Char} (h : sep ∉ l) :
    splitChar sep l = [l] := by
  induction l with
  | nil => rfl
  | cons c cs ih =>
    have hc : c ≠ sep := fun hc => h (hc ▸ List.mem_cons_self c cs)
    have hcs : sep ∉ cs := fun hm => h (List.mem_cons_of_mem c hm)
    simp only [splitChar, ih hcs]
    simp [hc]

theorem splitChar_append_of_not_mem {sep : Char} {g : List Char} (t : List Char)
    (h : sep ∉ g) : splitChar sep (g ++ sep :: t) = g :: splitChar sep t := by
  induction g with
  | nil =>
    simp only [List.nil_append, splitChar]
    have := splitChar_ne_nil sep t
    cases hs : splitChar sep t with
    | nil => exact absurd hs this
    | cons a as => simp
  | cons c cs ih =>
    have hc : c ≠ sep := fun hc => h (hc ▸ List.mem_cons_self c cs)
    have hcs : sep ∉ cs := fun hm => h (List.mem_cons_of_mem c hm)
    simp only [List.cons_append, splitChar, List.append_eq]
    rw [ih hcs]
    simp [hc]

theorem joinChar_splitChar (sep : Char) (l : List Char) :
    joinChar sep (splitChar sep l) = l := by
  induction l with
  | nil => rfl
  | cons c cs ih =>
    simp only [splitChar]
    rcases hs : splitChar sep cs with _ | ⟨g, gs⟩
    · exact absurd hs (splitChar_ne_nil sep cs)
    · by_cases h : c = sep
      · subst h
        simp only [if_pos rfl, joinChar]
        rw [hs] at ih
        simpa using ih
      · simp only [if_neg h]
        rw [hs] at ih
        cases gs with
        | nil => simpa [joinChar] using ih
        | cons g2 gs2 => simpa [joinChar] using ih

theorem splitChar_joinChar {sep : Char} {gs : List (List Char)} (hne : gs ≠ [])
    (h : ∀ g ∈ gs, sep ∉ g) : splitChar sep (joinChar sep gs) = gs := by
  induction gs with
  | nil => exact absurd rfl hne
  | cons g rest ih =>
    cases rest with
    | nil =>
      simp only [joinChar]
      exact splitChar_of_not_mem (h g (List.mem_cons_self g []))
    | cons g2 rest2 =>
      have hg : sep ∉ g := h g (List.mem_cons_self _ _)
      have hrest : ∀ x ∈ g2 :: rest2, sep ∉ x := fun x hx => h x (List.mem_cons_of_mem g hx)
      simp only [joinChar]
      rw [splitChar_append_of_not_mem _ hg, ih (by simp) hrest]

theorem dropWhile_eq_self_of_head {p : Char → Bool} {l : List Char}
    (h : ∀ c, l.head? = some c → p c = false) : l.dropWhile p = l := by
  cases l with
  | nil => rfl
  | cons c cs => simp [List.dropWhile_cons, h c rfl]

theorem dropTrailing_eq_self_of_getLast {p : Char → Bool} {l : List Char}
    (h : ∀ c, l.getLast? = some c → p c = false) : dropTrailing p l = l := by
  unfold dropTrailing
  rw [dropWhile_eq_self_of_head, List.reverse_reverse]
  intro c hc
  exact h c (by rwa [List.head?_reverse] at hc)

theorem goTrim_eq_self {p : Char → Bool} {l : List Char}
    (h1 : ∀ c, l.head? = some c → p c = false)
    (h2 : ∀ c, l.getLast? = some c → p c = false) : goTrim p l = l := by
  unfold goTrim
  rw [dropWhile_eq_self_of_head h1, dropTrailing_eq_self_of_getLast h2]

theorem goTrim_cons_of_pos {p : Char → Bool} {c : Char} (l : List Char) (h : p c = true) :
    goTrim p (c :: l) = goTrim p l := by
  unfold goTrim
  simp [List.dropWhile_cons, h]

theorem dropTrailing_append_of_pos {p : Char → Bool} {c : Char} (l : List Char)
    (h : p c = true) : dropTrailing p (l ++ [c]) = dropTrailing p l := by
  unfold dropTrailing
  simp [List.dropWhile_cons, h]

theorem goTrim_append_of_pos {p : Char → Bool} {c : Char} (l : List Char) (h : p c = true) :
    goTrim p (l ++ [c]) = goTrim p l := by
  unfold goTrim
  rw [List.dropWhile_append]
  by_cases he : (l.dropWhile p).isEmpty
  · simp only [he, if_true]
    simp only [List.dropWhile_cons, h, List.dropWhile_nil, if_true]
    have hl : l.dropWhile p = [] := by simpa [List.isEmpty_iff] using he
    simp [hl, dropTrailing]
  · simp only [he, if_false]
    exact dropTrailing_append_of_pos _ h

theorem goTrimSpace_eq_goTrim (l : List Char) : goTrimSpace l = goTrim goIsSpace l := rfl

/-! ## C3: the ByteSize codec -/

theorem wrap64_eq_self {n : Int} (h0 : 0 ≤ n) (h1 : n < 2 ^ 63) : wrap64 n = n := by
  unfold wrap64
  rw [Int.emod_eq_of_lt (by omega) (by omega)]
  omega

theorem byteRegexMatch_mult {l ds : List Char} {mult : Nat}
    (h : byteRegexMatch l = some (ds, mult)) :
    1 ≤ mult := by
  simp only [byteRegexMatch] at h
  split at h
  · exact absurd h (by simp)
  · split at h <;> simp_all <;> omega

theorem int_tdiv_natCast (a b : Nat) : Int.tdiv (a : Int) (b : Int) = ((a / b : Nat) : Int) := rfl

theorem toString_int_natCast (n : Nat) : toString (n : Int) = toString n := rfl

theorem formatBytes_natCast (v : Nat) : formatBytes (v : Int) = normalizedBytes v := by
  have t1 : Int.tdiv (v : Int) 1024 = ((v / 1024 : Nat) : Int) := rfl
  have t2 : Int.tdiv (v : Int) (1024 * 1024) = ((v / (1024 * 1024) : Nat) : Int) := rfl
  have t3 : Int.tdiv (v : Int) (1024 * 1024 * 1024) = ((v / (1024 * 1024 * 1024) : Nat) : Int) :=
    rfl
  unfold formatBytes normalizedBytes
  by_cases h1 : v < 1024
  · rw [if_pos (show (v : Int) < 1024 by exact_mod_cast h1), if_pos h1, toString_int_natCast]
  · rw [if_neg (show ¬ (v : Int) < 1024 by exact_mod_cast h1), if_neg h1]
    by_cases h2 : v < 1024 * 1024
    · rw [if_pos (show (v : Int) < 1024 * 1024 by exact_mod_cast h2), if_pos h2, t1,
        toString_int_natCast]
    · rw [if_neg (show ¬ (v : Int) < 1024 * 1024 by exact_mod_cast h2), if_neg h2]
      by_cases h3 : v < 1024 * 1024 * 1024
      · rw [if_pos (show (v : Int) < 1024 * 1024 * 1024 by exact_mod_cast h3), if_pos h3, t2,
          toString_int_natCast]
      · rw [if_neg (show ¬ (v : Int) < 1024 * 1024 * 1024 by exact_mod_cast h3), if_neg h3, t3,
          toString_int_natCast]

/-- C3 (counterexample).  At the concrete byte-size string
`"18014398509481984KB"` (2^54 kilobytes, i.e. 2^64 bytes, which
overflows `int64` and wraps to 0), `formatBytes (parseBytes s)` is
`"0B"`, while the normalized form of the string — which the claim
asserts it equals — is `"17179869184GB"`.  The string does consist of
digits followed by the unit `KB`. -/
theorem c3_counterexample :
    formatBytes (parseBytes "18014398509481984KB") = "0B" ∧
    byteRegexMatch (goToUpper (goTrimSpace ("18014398509481984KB").data)) =
      some ("18014398509481984".data, 1024) ∧
    normalizedBytes (digitsVal "18014398509481984".data * 1024) = "17179869184GB" ∧
    ("0B" : String) ≠ "17179869184GB" := by
  exact ⟨by decide, by decide, by decide, by decide⟩

/-- C3 (amended).  For every byte-size string whose trimmed,
upper-cased form is decimal digits followed by an optional unit in
{"", KB, MB, GB} **and whose mathematical value fits in `int64`**,
`parseBytes` returns exactly that value (digits × 1 / 1024 / 1024² /
1024³) and `formatBytes (parseBytes s)` is the normalized form of the
string (canonical largest unit, truncating division, leading zeros
dropped); and `parseBytes` returns 0 on every string not matching
`^(\d+)(KB|MB|GB)?$`.  (Without the fits-in-`int64` bound the claim
fails: Go's `ParseInt` clamps on range error with the error discarded,
and the unit multiplication wraps — see the counterexample.) -/
theorem c3_byte_roundtrip :
    (∀ (s : String) (ds : List Char) (mult : Nat),
        byteRegexMatch (goToUpper (goTrimSpace s.data)) = some (ds, mult) →
        digitsVal ds * mult ≤ 2 ^ 63 - 1 →
        parseBytes s = ((digitsVal ds * mult : Nat) : Int) ∧
        formatBytes (parseBytes s) = normalizedBytes (digitsVal ds * mult)) ∧
    (∀ s : String,
        byteRegexMatch (goToUpper (goTrimSpace s.data)) = none → parseBytes s = 0) := by
  constructor
  · intro s ds mult hm hle
    have hmult := byteRegexMatch_mult hm
    have hval : parseBytes s = ((digitsVal ds * mult : Nat) : Int) := by
      unfold parseBytes parseBytesL
      dsimp only
      rw [hm]
      have hds : digitsVal ds ≤ digitsVal ds * mult := Nat.le_mul_of_pos_right _ (by omega)
      have hnotbig : ¬ ((digitsVal ds : Int) > maxInt64) := by
        unfold maxInt64
        push_cast
        omega
      simp only [hnotbig, if_false]
      rw [show (digitsVal ds : Int) * (mult : Int) = ((digitsVal ds * mult : Nat) : Int) by
        push_cast; ring]
      exact wrap64_eq_self (by positivity) (by push_cast; omega)
    exact ⟨hval, by rw [hval, formatBytes_natCast]⟩
  · intro s hm
    unfold parseBytes parseBytesL
    dsimp only
    rw [hm]

/-- Witness for `c3_byte_roundtrip` at `s = "2048KB"`. -/
theorem c3_byte_roundtrip_witness :
    parseBytes "2048KB" = ((2097152 : Nat) : Int) ∧
    formatBytes (parseBytes "2048KB") = "2MB" ∧ parseBytes "12abc" = 0 := by
  have h := c3_byte_roundtrip.1 "2048KB" "2048".data 1024 (by decide) (by decide)
  have h2 := c3_byte_roundtrip.2 "12abc" (by decide)
  refine ⟨by rw [h.1]; decide, ?_, h2⟩
  rw [h.2]
  decide

/-! ## C5: quote stripping in `parseEnvironment` -/

/-- C5 (counterexample).  On the input `""A=b""` (two layers of double
quotes) `parseEnvironment` produces the mapping `{A ↦ b}`: the inner
quote layer is stripped as well, because `strings.Trim` removes *all*
leading/trailing cutset characters.  Under the claimed
one-layer-stripping behaviour the result would keep the inner quotes
(key `"A`, value `b"`). -/
theorem c5_counterexample :
    parseEnvironment "\"\"A=b\"\"" [] = [("A", "b")] ∧
    parseEnvironmentOneLayer "\"\"A=b\"\"" [] = [("\"A", "b\"")] ∧
    ([("A", "b")] : List (String × String)) ≠ [("\"A", "b\"")] :=
  ⟨by decide, by decide, by decide⟩

/-- C5 (amended).  `parseEnvironment` strips **all** leading and
trailing quote characters (any mix of `"` and `'`), not exactly one
layer: wrapping the input in one more layer of quotes never changes
the result, and on an input whose ends are not quote characters no
stripping happens at all. -/
theorem c5_strip_all_quotes :
    (∀ (v : String) (env : List (String × String)),
        parseEnvironment ("\"" ++ v ++ "\"") env = parseEnvironment v env ∧
        parseEnvironment ("'" ++ v ++ "'") env = parseEnvironment v env) ∧
    (∀ (v : String) (env : List (String × String)),
        (∀ c, v.data.head? = some c → isQuoteChar c = false) →
        (∀ c, v.data.getLast? = some c → isQuoteChar c = false) →
        parseEnvironment v env = parseEnvCore v.data env) := by
  constructor
  · intro v env
    constructor
    · show parseEnvCore (goTrim isQuoteChar ("\"" ++ v ++ "\"").data) env =
        parseEnvCore (goTrim isQuoteChar v.data) env
      rw [String.data_append, String.data_append]
      rw [show ("\"" : String).data = ['"'] from rfl]
      rw [show (['"'] ++ v.data) ++ ['"'] = '"' :: (v.data ++ ['"']) by simp]
      rw [goTrim_cons_of_pos _ (by decide), goTrim_append_of_pos _ (by decide)]
    · show parseEnvCore (goTrim isQuoteChar ("'" ++ v ++ "'").data) env =
        parseEnvCore (goTrim isQuoteChar v.data) env
      rw [String.data_append, String.data_append]
      rw [show ("'" : String).data = ['\''] from rfl]
      rw [show (['\''] ++ v.data) ++ ['\''] = '\'' :: (v.data ++ ['\'']) by simp]
      rw [goTrim_cons_of_pos _ (by decide), goTrim_append_of_pos _ (by decide)]
  · intro v env h1 h2
    show parseEnvCore (goTrim isQuoteChar v.data) env = parseEnvCore v.data env
    rw [goTrim_eq_self h1 h2]

/-- Witness for `c5_strip_all_quotes`. -/
theorem c5_strip_all_quotes_witness :
    parseEnvironment "\"'K=v'\"" [] = parseEnvironment "'K=v'" [] ∧
    parseEnvironment "K=v" [] = parseEnvCore "K=v".data [] :=
  ⟨(c5_strip_all_quotes.1 "'K=v'" []).1,
   c5_strip_all_quotes.2 "K=v" [] (by decide) (by decide)⟩

/-! ## C7: `GetStatus` success/failure classification -/

/-- C7 (counterexample).  When stdout parses to one record but stderr
is empty and the command exited non-zero, `GetStatus` returns the
records **together with the command's error** — not "with no error"
as the claim states. -/
theorem c7_counterexample :
    (parseStatus "app RUNNING\n").1 ≠ [] ∧
    getStatus "app RUNNING\n" "" (some "exit status 1") "unix:///tmp/supervisor.sock" =
      ([{ name := "app", status := "RUNNING", pid := 0, uptime := 0 }],
       some (StatusErr.execErr "exit status 1")) ∧
    (getStatus "app RUNNING\n" "" (some "exit status 1") "unix:///tmp/supervisor.sock").2 ≠
      none :=
  ⟨by decide, by decide, by decide⟩

/-- C7 (amended).  Whenever stdout parses to at least one
RuntimeRecord, the records are returned; the call carries no error
when stderr is non-empty and does not contain the
missing-`[supervisorctl]`-section message, and also when the command
itself succeeded; but when the command failed and stderr is empty (or
contains that message), the records come back **with** the command's
error. -/
theorem c7_getStatus_classification :
    ∀ (stdoutStr stderrStr : String) (cmdErr : Option String) (socketPath : String),
      (parseStatus stdoutStr).1 ≠ [] →
      (getStatus stdoutStr stderrStr cmdErr socketPath).1 = (parseStatus stdoutStr).1 ∧
      (stderrStr ≠ "" → goContains stderrStr.data missingSectionMsg.data = false →
        (getStatus stdoutStr stderrStr cmdErr socketPath).2 = none) ∧
      (cmdErr = none → (getStatus stdoutStr stderrStr cmdErr socketPath).2 = none) ∧
      ((stderrStr = "" ∨ goContains stderrStr.data missingSectionMsg.data = true) →
        (getStatus stdoutStr stderrStr cmdErr socketPath).2 =
          cmdErr.map StatusErr.execErr) := by
  intro out errS cmdErr sock h
  have hlen : 0 < (parseStatus out).1.length := List.length_pos.mpr h
  unfold getStatus
  dsimp only
  rw [if_pos hlen]
  by_cases hc : errS ≠ "" ∧ ¬ (goContains errS.data missingSectionMsg.data = true)
  · rw [if_pos hc]
    refine ⟨rfl, fun _ _ => rfl, fun _ => rfl, ?_⟩
    rintro (he | hg)
    · exact absurd he hc.1
    · exact absurd hg hc.2
  · rw [if_neg hc]
    cases cmdErr with
    | none => exact ⟨rfl, fun _ _ => rfl, fun _ => rfl, fun _ => rfl⟩
    | some m =>
      refine ⟨rfl, ?_, ?_, fun _ => rfl⟩
      · intro h1 h2
        exact absurd ⟨h1, fun hx => by rw [h2] at hx; cases hx⟩ hc
      · intro hn
        exact absurd hn (Option.some_ne_none m)

/-- Witness for `c7_getStatus_classification`: a non-empty stderr
warning with a parsed record yields the records and no error. -/
theorem c7_getStatus_classification_witness :
    (getStatus "app RUNNING\n" "some warning" (some "exit status 1") "s").1 =
      (parseStatus "app RUNNING\n").1 ∧
    (getStatus "app RUNNING\n" "some warning" (some "exit status 1") "s").2 = none := by
  have h := c7_getStatus_classification "app RUNNING\n" "some warning" (some "exit status 1") "s"
    (by decide)
  exact ⟨h.1, h.2.1 (by decide) (by decide)⟩

/-! ## C9: `UpdateProgram` -/

theorem updateProgramList_not_found {name : String} {p : ProcessConfig}
    {l : List ProcessConfig} (h : ∀ q ∈ l, q.name ≠ name) :
    updateProgramList name p l = l ++ [p] := by
  induction l with
  | nil => rfl
  | cons r rest ih =>
    have hr : r.name ≠ name := h r (List.mem_cons_self r rest)
    simp only [updateProgramList, if_neg hr, List.cons_append]
    rw [ih fun q hq => h q (List.mem_cons_of_mem r hq)]

theorem updateProgramList_found {name : String} {p : ProcessConfig}
    (l₁ : List ProcessConfig) {q : ProcessConfig} (l₂ : List ProcessConfig)
    (h1 : ∀ r ∈ l₁, r.name ≠ name) (hq : q.name = name) :
    updateProgramList name p (l₁ ++ q :: l₂) = l₁ ++ { p with name := name } :: l₂ := by
  induction l₁ with
  | nil => simp [updateProgramList, hq]
  | cons r rest ih =>
    have hr : r.name ≠ name := h1 r (List.mem_cons_self r rest)
    simp only [List.cons_append, updateProgramList, if_neg hr, List.append_eq]
    rw [ih fun x hx => h1 x (List.mem_cons_of_mem r hx)]

theorem updateProgramList_length {name : String} {p : ProcessConfig}
    {l : List ProcessConfig} (h : ∃ q ∈ l, q.name = name) :
    (updateProgramList name p l).length = l.length := by
  induction l with
  | nil => simp at h
  | cons r rest ih =>
    by_cases hr : r.name = name
    · simp [updateProgramList, if_pos hr]
    · rcases h with ⟨q, hq, hqname⟩
      rcases List.mem_cons.mp hq with rfl | hqrest
      · exact absurd hqname hr
      · simp only [updateProgramList, if_neg hr, List.length_cons]
        rw [ih ⟨q, hqrest, hqname⟩]

/-- The names of the list after `UpdateProgram` of an existing name
are unchanged. -/
theorem updateProgramList_names {name : String} {p : ProcessConfig}
    {l : List ProcessConfig} (h : name ∈ namesOfList l) :
    namesOfList (updateProgramList name p l) = namesOfList l := by
  induction l with
  | nil => simp [namesOfList] at h
  | cons r rest ih =>
    by_cases hr : r.name = name
    · simp [updateProgramList, if_pos hr, namesOfList, hr]
    · have hrest : name ∈ namesOfList rest := by
        rcases List.mem_map.mp h with ⟨q, hq, hqname⟩
        rcases List.mem_cons.mp hq with rfl | hqrest
        · exact absurd hqname hr
        · exact List.mem_map.mpr ⟨q, hqrest, hqname⟩
      simp only [updateProgramList, if_neg hr, namesOfList, List.map_cons]
      rw [show List.map (fun q => q.name) (updateProgramList name p rest) =
        namesOfList (updateProgramList name p rest) from rfl, ih hrest]
      rfl

/-- C9.  `UpdateProgram(name, p)`: when some definition is named
`name`, the first such definition is replaced by `p` with `p`'s name
overwritten to `name` (so an update never renames a program), the list
keeps its length and every other definition keeps its position; when
no definition is named `name`, `p` is appended unchanged at the
end. -/
theorem c9_updateProgram :
    ∀ (c : Config) (name : String) (p : ProcessConfig),
      ((∀ q ∈ c.programs, q.name ≠ name) →
        (updateProgram c name p).programs = c.programs ++ [p]) ∧
      (∀ (l₁ : List ProcessConfig) (q : ProcessConfig) (l₂ : List ProcessConfig),
        c.programs = l₁ ++ q :: l₂ → (∀ r ∈ l₁, r.name ≠ name) → q.name = name →
        (updateProgram c name p).programs = l₁ ++ { p with name := name } :: l₂) ∧
      ((∃ q ∈ c.programs, q.name = name) →
        (updateProgram c name p).programs.length = c.programs.length) := by
  intro c name p
  refine ⟨fun h => updateProgramList_not_found h, ?_, fun h => updateProgramList_length h⟩
  intro l₁ q l₂ hdec h1 hq
  show updateProgramList name p c.programs = _
  rw [hdec]
  exact updateProgramList_found l₁ l₂ h1 hq

/-- Witness for `c9_updateProgram`: a concrete update of the middle
element and a concrete append. -/
theorem c9_updateProgram_witness :
    (updateProgram (Config.mk "p" [{ name := "a" }, { name := "b", command := "old" }] [])
        "b" { name := "ignored", command := "new" }).programs =
      [{ name := "a" }, { name := "b", command := "new" }] ∧
    (updateProgram (Config.mk "p" [{ name := "a" }] []) "z"
        { name := "z2" }).programs = [{ name := "a" }, { name := "z2" }] := by
  constructor
  · have h := (c9_updateProgram
      (Config.mk "p" [{ name := "a" }, { name := "b", command := "old" }] [])
      "b" { name := "ignored", command := "new" }).2.1
      [{ name := "a" }] { name := "b", command := "old" } [] (by decide) (by decide) (by decide)
    rw [h]
    decide
  · have h := (c9_updateProgram (Config.mk "p" [{ name := "a" }] [])
      "z" { name := "z2" }).1 (by decide)
    rw [h]
    rfl

/-! ## C10: the edit-buffer parser `parseConfigText` -/

theorem except_isOk_ok {ε α : Type} (a : α) : (Except.ok a : Except ε α).isOk = true := rfl

theorem except_isOk_error {ε α : Type} (e : ε) : (Except.error e : Except ε α).isOk = false := rfl

theorem goHasPrefix_head {p : Char} {ps l : List Char}
    (h : goHasPrefix (p :: ps) l = true) : l.head? = some p := by
  cases l with
  | nil => simp [goHasPrefix] at h
  | cons c cs =>
    simp only [goHasPrefix, Bool.and_eq_true, decide_eq_true_eq] at h
    simp [h.1]

theorem not_skipped_of_header {t : List Char} (h : isProgramHeader t = true) :
    isSkippedLine t = false := by
  have hpre : goHasPrefix "[program:".data t = true := by
    simp only [isProgramHeader, Bool.and_eq_true] at h
    exact h.1
  have hh : t.head? = some '[' := goHasPrefix_head hpre
  cases t with
  | nil => simp at hh
  | cons c cs =>
    simp only [List.head?_cons, Option.some_inj] at hh
    subst hh
    simp [isSkippedLine, goHasPrefix]

theorem scanCfg_cons_skip {l : List Char} (c : ProcessConfig) (sec : Bool)
    (ls : List (List Char)) (h : isSkippedLine (goTrimSpace l) = true) :
    scanCfg c sec (l :: ls) = scanCfg c sec ls := by
  simp [scanCfg, h]

theorem scanCfg_cons_header {l : List Char} (c : ProcessConfig) (sec : Bool)
    (ls : List (List Char)) (h : isProgramHeader (goTrimSpace l) = true) :
    scanCfg c sec (l :: ls) =
      scanCfg { c with name := headerName (goTrimSpace l) } true ls := by
  simp [scanCfg, not_skipped_of_header h, h]

theorem scanCfg_cons_break {l : List Char} (c : ProcessConfig) (sec : Bool)
    (ls : List (List Char)) (h1 : isSkippedLine (goTrimSpace l) = false)
    (h2 : isProgramHeader (goTrimSpace l) = false)
    (h3 : (sec && goHasPrefix "[".data (goTrimSpace l)) = true) :
    scanCfg c sec (l :: ls) = (c, sec, true) := by
  simp [scanCfg, h1, h2, h3]

theorem scanCfg_cons_directive {l : List Char} (c : ProcessConfig) (sec : Bool)
    (ls : List (List Char)) (h1 : isSkippedLine (goTrimSpace l) = false)
    (h2 : isProgramHeader (goTrimSpace l) = false)
    (h3 : (sec && goHasPrefix "[".data (goTrimSpace l)) = false) (h4 : sec = true) :
    scanCfg c sec (l :: ls) = scanCfg (parseEditorLine (goTrimSpace l) c) sec ls := by
  subst h4
  have hpre : goHasPrefix "[".data (goTrimSpace l) = false := by simpa using h3
  simp [scanCfg, h1, h2, hpre]

theorem scanCfg_cons_outside {l : List Char} (c : ProcessConfig) (sec : Bool)
    (ls : List (List Char)) (h1 : isSkippedLine (goTrimSpace l) = false)
    (h2 : isProgramHeader (goTrimSpace l) = false) (h4 : sec = false) :
    scanCfg c sec (l :: ls) = scanCfg c sec ls := by
  simp [scanCfg, h1, h2, h4]

theorem scanCfg_append (xs ys : List (List Char)) :
    ∀ (c : ProcessConfig) (sec : Bool),
      scanCfg c sec (xs ++ ys) =
        if (scanCfg c sec xs).2.2 = true then scanCfg c sec xs
        else scanCfg (scanCfg c sec xs).1 (scanCfg c sec xs).2.1 ys := by
  induction xs with
  | nil =>
    intro c sec
    simp [scanCfg]
  | cons l ls ih =>
    intro c sec
    rw [List.cons_append]
    by_cases h1 : isSkippedLine (goTrimSpace l) = true
    · rw [scanCfg_cons_skip c sec (ls ++ ys) h1, scanCfg_cons_skip c sec ls h1]
      exact ih c sec
    · rw [Bool.not_eq_true] at h1
      by_cases h2 : isProgramHeader (goTrimSpace l) = true
      · rw [scanCfg_cons_header c sec (ls ++ ys) h2, scanCfg_cons_header c sec ls h2]
        exact ih _ true
      · rw [Bool.not_eq_true] at h2
        cases hsec : sec with
        | true =>
          by_cases h3 : (true && goHasPrefix "[".data (goTrimSpace l)) = true
          · rw [scanCfg_cons_break c true (ls ++ ys) h1 h2 h3,
              scanCfg_cons_break c true ls h1 h2 h3]
            simp
          · rw [Bool.not_eq_true] at h3
            rw [scanCfg_cons_directive c true (ls ++ ys) h1 h2 h3 rfl,
              scanCfg_cons_directive c true ls h1 h2 h3 rfl]
            exact ih _ true
        | false =>
          rw [scanCfg_cons_outside c false (ls ++ ys) h1 h2 rfl,
            scanCfg_cons_outside c false ls h1 h2 rfl]
          exact ih c false

/-- C10 (counterexample).  On the two-section editor text
`"[program:a]\ncommand=x\n[program:b]\ncommand=y\n"`, `parseConfigText`
does **not** stop at the second `[program:…]` header: it returns a
definition with name `"b"` and command `"y"`, showing that the second
header was processed (overwriting the name) and that the lines after
it were parsed rather than ignored. -/
theorem c10_counterexample :
    (parseConfigText "[program:a]\ncommand=x\n[program:b]\ncommand=y\n").toOption.map
        (fun c => (c.name, c.command)) = some ("b", "y") ∧
    (some (("b", "y") : String × String)) ≠ some ("a", "x") :=
  ⟨by decide, by decide⟩

/-- C10 (amended).  Once inside a program section, a bracketed line
that is **not** itself a well-formed `[program:<name>]` header
terminates parsing (every later line is ignored); a second
`[program:…]` header, however, does not terminate — it overwrites the
definition's name and parsing continues accumulating into the same
single definition.  The parser returns an error exactly when the name
accumulated at the point where scanning stopped is empty (no header
seen, or the last header's name empty). -/
theorem c10_parseConfigText :
    (∀ (c : ProcessConfig) (t : List Char) (ys : List (List Char)),
        isSkippedLine (goTrimSpace t) = false →
        isProgramHeader (goTrimSpace t) = false →
        goHasPrefix "[".data (goTrimSpace t) = true →
        scanCfg c true (t :: ys) = (c, true, true)) ∧
    (∀ (c : ProcessConfig) (sec : Bool) (t : List Char) (ys : List (List Char)),
        isProgramHeader (goTrimSpace t) = true →
        scanCfg c sec (t :: ys) =
          scanCfg { c with name := headerName (goTrimSpace t) } true ys) ∧
    (∀ text : String,
        ((scanLines text.data).2 = false ∨
          (scanCfg {} false (scanLines text.data).1).2.2 = true) →
        ((parseConfigText text).isOk = true ↔
          (scanCfg {} false (scanLines text.data).1).1.name ≠ "")) ∧
    (∀ (text : String) (cfg : ProcessConfig), parseConfigText text = .ok cfg →
        cfg = (scanCfg {} false (scanLines text.data).1).1) := by
  refine ⟨?_, ?_, ?_, ?_⟩
  · intro c t ys h1 h2 h3
    simp only [scanCfg, h1, h2, h3]
    simp
  · intro c sec t ys h
    simp only [scanCfg, not_skipped_of_header h, h]
    simp
  · intro text hcase
    unfold parseConfigText
    dsimp only
    have hcond : ¬ (¬ ((scanCfg {} false (scanLines text.data).1).2.2 = true) ∧
        (scanLines text.data).2 = true) := by
      rcases hcase with hscan | hbreak
      · intro hc
        rw [hscan] at hc
        exact absurd hc.2 (by simp)
      · intro hc
        exact hc.1 hbreak
    rw [if_neg hcond]
    by_cases hname : (scanCfg {} false (scanLines text.data).1).1.name = ""
    · rw [if_pos hname]
      simp [except_isOk_error, hname]
    · rw [if_neg hname]
      simp [except_isOk_ok, hname]
  · intro text cfg h
    unfold parseConfigText at h
    dsimp only at h
    split at h
    · cases h
    · split at h
      · cases h
      · cases h
        rfl

/-- Witness for `c10_parseConfigText`: a `[group:…]` header breaks the
scan; a second program header overwrites the name; the error-iff and
result characterisations at a concrete text. -/
theorem c10_parseConfigText_witness :
    scanCfg {} true ["[group:g]".data, "command=z".data] = ({}, true, true) ∧
    scanCfg {} false ["[program:b]".data] =
      scanCfg { name := "b" } true ([] : List (List Char)) ∧
    ((parseConfigText "[program:a]\n").isOk = true ↔
      (scanCfg {} false (scanLines "[program:a]\n".data).1).1.name ≠ "") ∧
    ({ name := "a" } : ProcessConfig) =
      (scanCfg {} false (scanLines "[program:a]\n".data).1).1 := by
  refine ⟨?_, ?_, ?_, ?_⟩
  · exact c10_parseConfigText.1 {} "[group:g]".data ["command=z".data]
      (by decide) (by decide) (by decide)
  · have h := c10_parseConfigText.2.1 {} false "[program:b]".data [] (by decide)
    rw [h]
    rfl
  · exact c10_parseConfigText.2.2.1 "[program:a]\n" (Or.inl (by decide))
  · exact c10_parseConfigText.2.2.2 "[program:a]\n" { name := "a" } (by rfl)

/-! ## C6: the reconciler merge -/

/-- C6.  For every configuration and list of runtime records: the
merged view has exactly one `Process` per runtime record (same length,
same name at every index — so definitions with no runtime record
surface nowhere); a record whose name matches a definition exactly
gets a definition with exactly that name; when no exact match exists
the attached definition is the first case-insensitive
(`strings.EqualFold`) match, and when neither exists the record is
unchanged (no definition attached); finally, concretely, a record
named `"Worker"` gets the definition named `"worker"` attached. -/
theorem c6_merge :
    ∀ (cfg : Config) (procs : List GoProcess),
      (mergeProcesses cfg procs).length = procs.length ∧
      (∀ i : Nat, ((mergeProcesses cfg procs)[i]?).map GoProcess.name =
        (procs[i]?).map GoProcess.name) ∧
      (∀ name : String, (∃ q ∈ cfg.programs, q.name = name) →
        ∃ p, findMergeConfig cfg name = some p ∧ p.name = name) ∧
      (∀ name : String, (∀ q ∈ cfg.programs, q.name ≠ name) →
        findMergeConfig cfg name =
          cfg.programs.find? (fun q => goEqualFold q.name.data name.data)) ∧
      (∀ name : String, (∀ q ∈ cfg.programs, q.name ≠ name) →
        (∀ q ∈ cfg.programs, goEqualFold q.name.data name.data = false) →
        findMergeConfig cfg name = none) ∧
      (∀ (i : Nat) (r : GoProcess), procs[i]? = some r →
        (∀ p, findMergeConfig cfg r.name = some p →
          (mergeProcesses cfg procs)[i]? = some { r with config := some p }) ∧
        (findMergeConfig cfg r.name = none → (mergeProcesses cfg procs)[i]? = some r)) ∧
      mergeProcesses (Config.mk "c" [{ name := "worker", command := "cmd" }] [])
          [{ name := "Worker", status := "RUNNING", pid := 5, uptime := 0 }] =
        [{ name := "Worker", status := "RUNNING", pid := 5, uptime := 0,
           config := some { name := "worker", command := "cmd" } }] := by
  intro cfg procs
  refine ⟨?_, ?_, ?_, ?_, ?_, ?_, by decide⟩
  · simp [mergeProcesses]
  · intro i
    simp only [mergeProcesses, List.getElem?_map, Option.map_map]
    rcases h : procs[i]? with _ | r
    · simp
    · simp only [Option.map_some', Option.some_inj, Function.comp_apply]
      cases hf : findMergeConfig cfg r.name <;> simp [hf]
  · intro name hex
    rcases hex with ⟨q, hq, hqname⟩
    have hsome : (cfg.programs.find? (fun p => p.name = name)).isSome := by
      rw [List.find?_isSome]
      exact ⟨q, hq, by simp [hqname]⟩
    rcases Option.isSome_iff_exists.mp hsome with ⟨p, hp⟩
    refine ⟨p, ?_, ?_⟩
    · unfold findMergeConfig getProcessConfig
      rw [hp]
    · have := List.find?_some hp
      simpa using this
  · intro name h
    have hnone : cfg.programs.find? (fun p => p.name = name) = none := by
      rw [List.find?_eq_none]
      intro q hq
      simp [h q hq]
    unfold findMergeConfig getProcessConfig
    rw [hnone]
  · intro name h hfold
    have hnone : cfg.programs.find? (fun p => p.name = name) = none := by
      rw [List.find?_eq_none]
      intro q hq
      simp [h q hq]
    have hnone2 : cfg.programs.find? (fun q => goEqualFold q.name.data name.data) = none := by
      rw [List.find?_eq_none]
      intro q hq
      simp [hfold q hq]
    unfold findMergeConfig getProcessConfig
    rw [hnone, hnone2]
  · intro i r hr
    constructor
    · intro p hp
      simp only [mergeProcesses, List.getElem?_map, hr, Option.map_some', Option.some_inj]
      rw [hp]
    · intro hnone
      simp only [mergeProcesses, List.getElem?_map, hr, Option.map_some', Option.some_inj]
      rw [hnone]

/-- Witness for `c6_merge`: the exact-match characterisation at a
concrete configuration. -/
theorem c6_merge_witness :
    ∃ p, findMergeConfig (Config.mk "c" [{ name := "app" }] []) "app" = some p ∧
      p.name = "app" :=
  (c6_merge (Config.mk "c" [{ name := "app" }] []) []).2.2.1 "app"
    ⟨{ name := "app" }, by decide, rfl⟩

/-! ## C2: the status text parser -/

theorem goTrimSpace_dropCR (l : List Char) : goTrimSpace (dropCR l) = goTrimSpace l := by
  unfold dropCR
  by_cases h : l.getLast? = some '\r'
  · rw [if_pos h]
    have hne : l ≠ [] := by
      intro he
      rw [he] at h
      simp at h
    have hdec : l.dropLast ++ ['\r'] = l := by
      have hlast : l.getLast hne = '\r' := by
        have := List.getLast?_eq_getLast l hne
        rw [this] at h
        exact Option.some_inj.mp h.symm |>.symm
      rw [← hlast]
      exact List.dropLast_append_getLast hne
    conv_rhs => rw [← hdec]
    rw [goTrimSpace_eq_goTrim, goTrimSpace_eq_goTrim, goTrim_append_of_pos _ (by decide)]
  · rw [if_neg h]

theorem rawSegments_single {l : List Char} (hn : '\n' ∉ l) (hne : l ≠ []) :
    rawSegments l = [l] := by
  unfold rawSegments
  rw [splitChar_of_not_mem hn]
  simp [hne]

/-- C2 (counterexample).  `parseStatus` **does** return an error for
some input: a single line of 65536 `'a'`s (at the scanner's
`bufio.MaxScanTokenSize` limit) makes the underlying `bufio.Scanner`
fail with `ErrTooLong`, which `parseStatus` returns via
`scanner.Err()`. -/
theorem c2_counterexample :
    (parseStatus (String.mk (List.replicate 65536 'a'))).2 = true ∧
    (String.mk (List.replicate 65536 'a')).data.length = 65536 := by
  have hmem : '\n' ∉ List.replicate 65536 'a' := by
    intro hmem
    have := (List.mem_replicate.mp hmem).2
    cases this
  constructor
  · have hsnd : ∀ t : String, (parseStatus t).2 =
        (rawSegments t.data).any (fun l => maxScanTokenSize ≤ l.length) := fun _ => rfl
    rw [hsnd]
    have hdata : (String.mk (List.replicate 65536 'a')).data = List.replicate 65536 'a' := rfl
    have hrep : List.replicate 65536 'a' ≠ [] := by
      intro h
      have hlen := congrArg List.length h
      rw [List.length_replicate, List.length_nil] at hlen
      omega
    rw [hdata, rawSegments_single hmem hrep]
    simp only [List.any_cons, List.any_nil, Bool.or_false, List.length_replicate]
    decide
  · exact List.length_replicate ..

/-- C2 (amended).  The end-to-end example parses to exactly the two
claimed records; uptime text matching neither the
`"<days> days, H:MM:SS"` grammar nor the exactly-3-field `"H:MM:SS"`
grammar yields a zero duration; a line with fewer than 2 white-space
tokens is skipped; and the parser returns no error on any input
**whose lines are all shorter than the 64 KiB scanner token limit**
(an over-long line makes it return the records parsed so far together
with a scanner error — see the counterexample). -/
theorem c2_parseStatus :
    parseStatus "app RUNNING pid 100, uptime 0:01:00\nworker STOPPED Jan 01 12:00 AM\n" =
      ([{ name := "app", status := "RUNNING", pid := 100, uptime := 60 * nsSecond },
        { name := "worker", status := "STOPPED", pid := 0, uptime := 0 }], false) ∧
    (∀ s : String, daysGrammarMatch (goTrimSpace s.data) = false →
      (splitChar ':' (goTrimSpace s.data)).length ≠ 3 → parseUptime s = 0) ∧
    (∀ line : String, '\n' ∉ line.data → line.data.length < maxScanTokenSize →
      (goFields (goTrimSpace line.data)).length < 2 → (parseStatus line).1 = []) ∧
    (∀ s : String, (∀ l ∈ rawSegments s.data, l.length < maxScanTokenSize) →
      (parseStatus s).2 = false) := by
  refine ⟨by decide, ?_, ?_, ?_⟩
  · intro s hdays hsplit
    unfold parseUptime parseUptimeL
    dsimp only
    simp only [daysGrammarMatch, Bool.and_eq_true] at hdays
    have hcolon :
        (match splitChar ':' (goTrimSpace s.data) with
          | [h, m, sec] =>
            wrap64 (wrap64 (wrap64 (goAtoiLoose h * nsHour) + wrap64 (goAtoiLoose m * nsMinute))
              + wrap64 (goAtoiLoose sec * nsSecond))
          | _ => (0 : Int)) = 0 := by
      rcases hsp : splitChar ':' (goTrimSpace s.data) with _ | ⟨a, _ | ⟨b, _ | ⟨c, _ | d⟩⟩⟩
      · rfl
      · rfl
      · rfl
      · rw [hsp] at hsplit
        simp at hsplit
      · rfl
    by_cases hc : goContains (goTrimSpace s.data) "days".data = true
    · have hfind : findLeftmost daysMatchAt (goTrimSpace s.data) = none := by
        rcases hf : findLeftmost daysMatchAt (goTrimSpace s.data) with _ | q
        · rfl
        · exfalso
          rcases Bool.and_eq_false_iff.mp hdays with h | h
          · rw [hc] at h
            cases h
          · rw [hf] at h
            simp at h
      rw [if_pos hc, hfind]
      exact hcolon
    · rw [if_neg hc]
      exact hcolon
  · intro line hn hlen hfields
    have hfst : ∀ t : String, (parseStatus t).1 =
        (((rawSegments t.data).takeWhile (fun s => s.length < maxScanTokenSize)).map
          dropCR).filterMap parseStatusLine := fun _ => rfl
    rw [hfst]
    by_cases hne : line.data = []
    · rw [hne]
      rfl
    · rw [rawSegments_single hn hne]
      have hp : (fun s : List Char => decide (s.length < maxScanTokenSize)) line.data = true :=
        decide_eq_true hlen
      have hline : parseStatusLine (dropCR line.data) = none := by
        unfold parseStatusLine
        dsimp only
        rw [goTrimSpace_dropCR]
        by_cases hemp : (goTrimSpace line.data).isEmpty = true
        · rw [if_pos hemp]
        · rw [if_neg hemp]
          rcases hf : goFields (goTrimSpace line.data) with _ | ⟨p0, _ | ⟨p1, rest⟩⟩
          · rfl
          · rfl
          · rw [hf] at hfields
            exfalso
            simp only [List.length_cons] at hfields
            omega
      simp [List.takeWhile_cons, hp, hline]
  · intro s hshort
    have hsnd : ∀ t : String, (parseStatus t).2 =
        (rawSegments t.data).any (fun l => maxScanTokenSize ≤ l.length) := fun _ => rfl
    rw [hsnd, List.any_eq_false]
    intro l hl
    simp only [decide_eq_true_eq]
    exact Nat.not_le.mpr (hshort l hl)

/-- Witness for `c2_parseStatus`: the stopped-process timestamp
`"Jan 01 12:00 AM"` parses to a zero uptime; a one-token line is
skipped; a short input scans without error. -/
theorem c2_parseStatus_witness :
    parseUptime "Jan 01 12:00 AM" = 0 ∧
    (parseStatus "loneword").1 = [] ∧
    (parseStatus "a B\n").2 = false := by
  refine ⟨?_, ?_, ?_⟩
  · exact c2_parseStatus.2.1 "Jan 01 12:00 AM" (by decide) (by decide)
  · exact c2_parseStatus.2.2.1 "loneword" (by decide) (by decide) (by decide)
  · exact c2_parseStatus.2.2.2 "a B\n" (by decide)

/-! ## C8: the name invariant of `LoadConfig` / `AddProgram` /
`UpdateProgram` -/

set_option maxHeartbeats 2000000 in
theorem applyDirectiveWith_name (pb : List Char → Int) (k v : List Char) (c : ProcessConfig) :
    (applyDirectiveWith pb k v c).name = c.name := by
  unfold applyDirectiveWith
  by_cases h1 : k = "command".data
  · rw [if_pos h1]
  rw [if_neg h1]
  by_cases h2 : k = "directory".data
  · rw [if_pos h2]
  rw [if_neg h2]
  by_cases h3 : k = "user".data
  · rw [if_pos h3]
  rw [if_neg h3]
  by_cases h4 : k = "autostart".data
  · rw [if_pos h4]
  rw [if_neg h4]
  by_cases h5 : k = "autorestart".data
  · rw [if_pos h5]
  rw [if_neg h5]
  by_cases h6 : k = "startsecs".data
  · rw [if_pos h6]
    rcases goAtoiValid v with _ | i <;> rfl
  rw [if_neg h6]
  by_cases h7 : k = "startretries".data
  · rw [if_pos h7]
    rcases goAtoiValid v with _ | i <;> rfl
  rw [if_neg h7]
  by_cases h8 : k = "stdout_logfile".data
  · rw [if_pos h8]
  rw [if_neg h8]
  by_cases h9 : k = "stderr_logfile".data
  · rw [if_pos h9]
  rw [if_neg h9]
  by_cases h10 : k = "stdout_logfile_maxbytes".data
  · rw [if_pos h10]
  rw [if_neg h10]
  by_cases h11 : k = "stdout_logfile_backups".data
  · rw [if_pos h11]
    rcases goAtoiValid v with _ | i <;> rfl
  rw [if_neg h11]
  by_cases h12 : k = "stderr_logfile_maxbytes".data
  · rw [if_pos h12]
  rw [if_neg h12]
  by_cases h13 : k = "stderr_logfile_backups".data
  · rw [if_pos h13]
    rcases goAtoiValid v with _ | i <;> rfl
  rw [if_neg h13]
  by_cases h14 : k = "environment".data
  · rw [if_pos h14]
  rw [if_neg h14]
  by_cases h15 : k = "priority".data
  · rw [if_pos h15]
    rcases goAtoiValid v with _ | i <;> rfl
  rw [if_neg h15]
  by_cases h16 : k = "stopsignal".data
  · rw [if_pos h16]
  rw [if_neg h16]
  by_cases h17 : k = "stopwaitsecs".data
  · rw [if_pos h17]
    rcases goAtoiValid v with _ | i <;> rfl
  rw [if_neg h17]

theorem parseProgramLine_name (t : List Char) (c : ProcessConfig) :
    (parseProgramLine t c).name = c.name := by
  unfold parseProgramLine
  rcases splitKeyValue t with _ | ⟨k, v⟩
  · rfl
  · exact applyDirectiveWith_name ..

theorem lineHeaderOf_eq_some {l : List Char} (h : isProgramHeader (goTrimSpace l) = true) :
    lineHeaderOf l = some (headerName (goTrimSpace l)) := by
  simp [lineHeaderOf, h]

theorem lineHeaderOf_eq_none {l : List Char} (h : isProgramHeader (goTrimSpace l) = false) :
    lineHeaderOf l = none := by
  simp [lineHeaderOf, h]

theorem loadStep_skip {l : List Char} (st : List ProcessConfig × Option ProcessConfig)
    (h : isSkippedLine (goTrimSpace l) = true) : loadStep st l = st := by
  simp [loadStep, h]

theorem loadStep_header {l : List Char} (st : List ProcessConfig × Option ProcessConfig)
    (h : isProgramHeader (goTrimSpace l) = true) :
    loadStep st l = (st.1 ++ st.2.toList, some { name := headerName (goTrimSpace l) }) := by
  simp [loadStep, not_skipped_of_header h, h]

theorem loadStep_leave {l : List Char} {st : List ProcessConfig × Option ProcessConfig}
    {c : ProcessConfig} (h1 : isSkippedLine (goTrimSpace l) = false)
    (h2 : isProgramHeader (goTrimSpace l) = false)
    (h3 : goHasPrefix "[".data (goTrimSpace l) = true) (hcur : st.2 = some c) :
    loadStep st l = (st.1 ++ [c], none) := by
  simp [loadStep, h1, h2, h3, hcur]

theorem loadStep_directive {l : List Char} {st : List ProcessConfig × Option ProcessConfig}
    {c : ProcessConfig} (h1 : isSkippedLine (goTrimSpace l) = false)
    (h2 : isProgramHeader (goTrimSpace l) = false)
    (h3 : goHasPrefix "[".data (goTrimSpace l) = false) (hcur : st.2 = some c) :
    loadStep st l = (st.1, some (parseProgramLine (goTrimSpace l) c)) := by
  simp [loadStep, h1, h2, h3, hcur]

theorem loadStep_nocur {l : List Char} {st : List ProcessConfig × Option ProcessConfig}
    (h1 : isSkippedLine (goTrimSpace l) = false)
    (h2 : isProgramHeader (goTrimSpace l) = false) (hcur : st.2 = none) :
    loadStep st l = st := by
  rcases st with ⟨acc, cur⟩
  simp only at hcur
  subst hcur
  simp [loadStep, h1, h2]

theorem load_foldl_names (ls : List (List Char)) :
    ∀ st : List ProcessConfig × Option ProcessConfig,
      namesOfList ((ls.foldl loadStep st).1 ++ (ls.foldl loadStep st).2.toList) =
        namesOfList (st.1 ++ st.2.toList) ++ headerNamesOf ls := by
  induction ls with
  | nil =>
    intro st
    simp [headerNamesOf]
  | cons l rest ih =>
    intro st
    rw [List.foldl_cons]
    by_cases h2 : isProgramHeader (goTrimSpace l) = true
    · rw [loadStep_header st h2, ih]
      simp only [headerNamesOf, List.filterMap_cons, lineHeaderOf_eq_some h2]
      simp [namesOfList]
    · rw [Bool.not_eq_true] at h2
      have hline : headerNamesOf (l :: rest) = headerNamesOf rest := by
        rw [headerNamesOf, List.filterMap_cons, lineHeaderOf_eq_none h2]
        rfl
      rw [hline]
      by_cases h1 : isSkippedLine (goTrimSpace l) = true
      · rw [loadStep_skip st h1, ih]
      · rw [Bool.not_eq_true] at h1
        rcases hcur : st.2 with _ | c
        · rw [loadStep_nocur h1 h2 hcur, ih, hcur]
        · by_cases h3 : goHasPrefix "[".data (goTrimSpace l) = true
          · rw [loadStep_leave h1 h2 h3 hcur, ih]
            simp [namesOfList, hcur]
          · rw [Bool.not_eq_true] at h3
            rw [loadStep_directive h1 h2 h3 hcur, ih]
            simp [namesOfList, hcur, parseProgramLine_name]

theorem loadConfigLines_names (ls : List (List Char)) :
    namesOfList (loadConfigLines ls) = headerNamesOf ls := by
  unfold loadConfigLines
  dsimp only
  have h := load_foldl_names ls ([], none)
  simpa [namesOfList] using h

/-- C8 (counterexample).  `LoadConfig` performs no validation: the
file `"[program:a]\n[program:a]\n"` loads to two definitions that
share the name `"a"`, and `"[program:]\ncommand=x\n"` loads to a
definition with an empty name. -/
theorem c8_counterexample :
    (loadConfigText "cfg" "[program:a]\n[program:a]\n").toOption.map
        (fun c => namesOfList c.programs) = some ["a", "a"] ∧
    ¬ (["a", "a"] : List String).Nodup ∧
    (loadConfigText "cfg" "[program:]\ncommand=x\n").toOption.map
        (fun c => namesOfList c.programs) = some [""] :=
  ⟨by decide, by decide, by decide⟩

/-- C8 (amended).  `LoadConfig` produces definitions whose names are
exactly the `[program:…]` header names of the file, in order — so the
invariant (non-empty, pairwise-distinct names) holds exactly when the
file's headers already satisfy it; `AddProgram` appends
unconditionally, preserving the invariant only when the added name is
non-empty and fresh; `UpdateProgram` of an existing name leaves the
name list unchanged (and hence preserves the invariant). -/
theorem c8_name_invariant :
    (∀ (path content : String) (cfg : Config),
      loadConfigText path content = .ok cfg →
      namesOfList cfg.programs = headerNamesOf (scanLines content.data).1 ∧
      ((headerNamesOf (scanLines content.data).1).Nodup → (namesOfList cfg.programs).Nodup) ∧
      ((∀ n ∈ headerNamesOf (scanLines content.data).1, n ≠ "") →
        ∀ p ∈ cfg.programs, p.name ≠ "")) ∧
    (∀ (c : Config) (p : ProcessConfig),
      namesOfList (addProgram c p).programs = namesOfList c.programs ++ [p.name]) ∧
    (∀ (c : Config) (p : ProcessConfig),
      (namesOfList c.programs).Nodup → p.name ∉ namesOfList c.programs →
      (namesOfList (addProgram c p).programs).Nodup) ∧
    (∀ (c : Config) (p : ProcessConfig),
      (∀ q ∈ c.programs, q.name ≠ "") → p.name ≠ "" →
      ∀ q ∈ (addProgram c p).programs, q.name ≠ "") ∧
    (∀ (c : Config) (name : String) (p : ProcessConfig),
      name ∈ namesOfList c.programs →
      namesOfList (updateProgram c name p).programs = namesOfList c.programs) := by
  refine ⟨?_, ?_, ?_, ?_, ?_⟩
  · intro path content cfg h
    unfold loadConfigText at h
    dsimp only at h
    split at h
    · cases h
    · cases h
      refine ⟨loadConfigLines_names _, ?_, ?_⟩
      · intro hnd
        rwa [loadConfigLines_names]
      · intro hne p hp
        have : p.name ∈ headerNamesOf (scanLines content.data).1 := by
          rw [← loadConfigLines_names]
          exact List.mem_map.mpr ⟨p, hp, rfl⟩
        exact hne _ this
  · intro c p
    simp [addProgram, namesOfList]
  · intro c p hnd hfresh
    have h : namesOfList (addProgram c p).programs = namesOfList c.programs ++ [p.name] := by
      simp [addProgram, namesOfList]
    rw [h]
    simpa [List.nodup_append] using ⟨hnd, fun hx => hfresh hx⟩
  · intro c p hall hp q hq
    rcases List.mem_append.mp hq with h | h
    · exact hall q h
    · rcases List.mem_singleton.mp h with rfl
      exact hp
  · intro c name p h
    exact updateProgramList_names h

/-- Witness for `c8_name_invariant`. -/
theorem c8_name_invariant_witness :
    namesOfList (loadConfigLines (scanLines "[program:x]\n".data).1) =
      headerNamesOf (scanLines "[program:x]\n".data).1 ∧
    namesOfList (addProgram (Config.mk "p" [] []) { name := "x" }).programs = [] ++ ["x"] ∧
    (namesOfList (addProgram (Config.mk "p" [{ name := "x" }] []) { name := "y" }).programs).Nodup ∧
    namesOfList (updateProgram (Config.mk "p" [{ name := "x" }] []) "x"
      { name := "y" }).programs = namesOfList (Config.mk "p" [{ name := "x" }] []).programs := by
  refine ⟨?_, ?_, ?_, ?_⟩
  · exact (c8_name_invariant.1 "p" "[program:x]\n" _ rfl).1
  · exact c8_name_invariant.2.1 (Config.mk "p" [] []) { name := "x" }
  · exact c8_name_invariant.2.2.1 (Config.mk "p" [{ name := "x" }] []) { name := "y" }
      (by decide) (by decide)
  · exact c8_name_invariant.2.2.2.2 (Config.mk "p" [{ name := "x" }] []) "x" { name := "y" }
      (by decide)

/-! ## C4: the environment round trip -/

theorem length_dropWhileLe (p : Char → Bool) (l : List Char) :
    (l.dropWhile p).length ≤ l.length := by
  induction l with
  | nil => simp
  | cons a t ih =>
    rw [List.dropWhile_cons]
    by_cases h : p a = true
    · simp only [h, if_true]
      calc (t.dropWhile p).length ≤ t.length := ih
        _ ≤ (a :: t).length := by simp
    · simp [h]

theorem goTrimSpace_length_le (l : List Char) : (goTrimSpace l).length ≤ l.length := by
  unfold goTrimSpace dropTrailing
  have h1 := length_dropWhileLe goIsSpace (l.dropWhile goIsSpace).reverse
  have h2 := length_dropWhileLe goIsSpace l
  simp only [List.length_reverse] at h1 ⊢
  omega

theorem head_not_space_of_trimSpace_eq {l : List Char} (h : goTrimSpace l = l)
    {c : Char} (hc : l.head? = some c) : goIsSpace c = false := by
  by_contra hs
  rw [Bool.not_eq_false] at hs
  cases l with
  | nil => simp at hc
  | cons a t =>
    rw [List.head?_cons, Option.some_inj] at hc
    rw [← hc] at hs
    have h1 : goTrimSpace (a :: t) = goTrimSpace t := by
      rw [goTrimSpace_eq_goTrim, goTrimSpace_eq_goTrim]
      exact goTrim_cons_of_pos t hs
    have h2 := goTrimSpace_length_le t
    rw [h1] at h
    have h3 := congrArg List.length h
    simp only [List.length_cons] at h3
    omega

theorem getLast_not_space_of_trimSpace_eq {l : List Char} (h : goTrimSpace l = l)
    {c : Char} (hc : l.getLast? = some c) : goIsSpace c = false := by
  by_contra hs
  rw [Bool.not_eq_false] at hs
  have hne : l ≠ [] := by
    intro he
    rw [he] at hc
    simp at hc
  have hdec : l.dropLast ++ [c] = l := by
    have hlast : l.getLast hne = c := by
      have hx := List.getLast?_eq_getLast l hne
      rw [hx] at hc
      exact Option.some_inj.mp hc
    rw [← hlast]
    exact List.dropLast_append_getLast hne
  have h1 : goTrimSpace (l.dropLast ++ [c]) = goTrimSpace l.dropLast := by
    rw [goTrimSpace_eq_goTrim, goTrimSpace_eq_goTrim]
    exact goTrim_append_of_pos _ hs
  rw [hdec] at h1
  have h2 := goTrimSpace_length_le l.dropLast
  rw [h1] at h
  have h3 := congrArg List.length h
  have h4 : l.dropLast.length + 1 = l.length := by
    rw [← hdec]
    simp
  omega

theorem lookup_envInsert (k' k v : String) (e : List (String × String)) :
    List.lookup k' (envInsert k v e) = if k' = k then some v else List.lookup k' e := by
  induction e with
  | nil =>
    simp only [envInsert, List.lookup]
    by_cases h : k' = k
    · rw [if_pos h, show (k' == k) = true from beq_iff_eq.mpr h]
    · rw [if_neg h, show (k' == k) = false from beq_eq_false_iff_ne.mpr h]
  | cons kv rest ih =>
    rcases kv with ⟨k0, v0⟩
    by_cases h0 : k0 = k
    · subst h0
      simp only [envInsert, if_pos rfl, List.lookup]
      by_cases h : k' = k0
      · rw [if_pos h, show (k' == k0) = true from beq_iff_eq.mpr h]
      · rw [if_neg h, show (k' == k0) = false from beq_eq_false_iff_ne.mpr h]
    · simp only [envInsert, if_neg h0, List.lookup]
      by_cases h : k' = k0
      · rw [show (k' == k0) = true from beq_iff_eq.mpr h]
        have hne : ¬ k' = k := fun he => h0 (h ▸ he)
        rw [if_neg hne]
      · rw [show (k' == k0) = false from beq_eq_false_iff_ne.mpr h, ih]

theorem lookup_eq_none_of_not_mem {k : String} {l : List (String × String)}
    (h : k ∉ l.map Prod.fst) : List.lookup k l = none := by
  induction l with
  | nil => rfl
  | cons kv rest ih =>
    rcases kv with ⟨k0, v0⟩
    have hne : k ≠ k0 := by
      intro he
      exact h (by simp [he])
    simp only [List.lookup, show (k == k0) = false from beq_eq_false_iff_ne.mpr hne]
    exact ih fun hm => h (by simp at hm ⊢; exact Or.inr hm)

theorem lookup_foldl_insert (l : List (String × String)) :
    ∀ (env0 : List (String × String)) (k : String), (l.map Prod.fst).Nodup →
      List.lookup k (l.foldl (fun e kv => envInsert kv.1 kv.2 e) env0) =
        (List.lookup k l).or (List.lookup k env0) := by
  induction l with
  | nil =>
    intro env0 k _
    simp [List.lookup]
  | cons kv rest ih =>
    intro env0 k hnd
    rcases kv with ⟨k0, v0⟩
    simp only [List.map_cons, List.nodup_cons] at hnd
    rw [List.foldl_cons]
    rw [ih (envInsert k0 v0 env0) k hnd.2]
    by_cases h : k = k0
    · subst h
      rw [lookup_eq_none_of_not_mem hnd.1]
      simp only [List.lookup, show (k == k) = true from beq_iff_eq.mpr rfl, Option.none_or]
      rw [lookup_envInsert]
      simp
    · simp only [List.lookup, show (k == k0) = false from beq_eq_false_iff_ne.mpr h]
      rw [lookup_envInsert]
      rw [if_neg h]

theorem perm_lookup {l l' : List (String × String)} (hp : l.Perm l')
    (hnd : (l.map Prod.fst).Nodup) (k : String) :
    List.lookup k l = List.lookup k l' := by
  induction hp with
  | nil => rfl
  | cons x _ ih =>
    rcases x with ⟨k0, v0⟩
    simp only [List.map_cons, List.nodup_cons] at hnd
    simp only [List.lookup]
    cases k == k0 with
    | true => rfl
    | false => exact ih hnd.2
  | swap x y t =>
    rcases x with ⟨k1, v1⟩
    rcases y with ⟨k2, v2⟩
    simp only [List.map_cons, List.nodup_cons, List.mem_cons] at hnd
    have hne : k2 ≠ k1 := fun he => hnd.1 (Or.inl he)
    simp only [List.lookup]
    by_cases h2 : k = k2
    · rw [show (k == k2) = true from beq_iff_eq.mpr h2,
        show (k == k1) = false from
          beq_eq_false_iff_ne.mpr (fun he => hne (h2.symm.trans he))]
    · rw [show (k == k2) = false from beq_eq_false_iff_ne.mpr h2]
  | trans hab _ ih1 ih2 =>
    rw [ih1 hnd]
    have hnd2 : _ := (hab.map Prod.fst).nodup_iff.mp hnd
    exact ih2 hnd2

theorem joinChar_cons_of_ne (sep : Char) (g : List Char) {gs : List (List Char)}
    (h : gs ≠ []) : joinChar sep (g :: gs) = g ++ sep :: joinChar sep gs := by
  cases gs with
  | nil => exact absurd rfl h
  | cons a t => rfl

theorem head?_append_left {α : Type} {a : List α} (b : List α) (h : a ≠ []) :
    (a ++ b).head? = a.head? := by
  cases a with
  | nil => exact absurd rfl h
  | cons c cs => simp

theorem getLast?_append_right {α : Type} (x : List α) {y : List α} (h : y ≠ []) :
    (x ++ y).getLast? = y.getLast? := by
  rw [← List.head?_reverse, ← List.head?_reverse, List.reverse_append]
  exact head?_append_left _ (by simpa using h)

theorem joinChar_head? (sep : Char) {g : List Char} (gs : List (List Char)) (hg : g ≠ []) :
    (joinChar sep (g :: gs)).head? = g.head? := by
  cases gs with
  | nil => rfl
  | cons a t =>
    rw [joinChar_cons_of_ne sep g (by simp)]
    exact head?_append_left _ hg

theorem joinChar_getLast? (sep : Char) (gs : List (List Char)) {g : List Char} (hg : g ≠ []) :
    (joinChar sep (gs ++ [g])).getLast? = g.getLast? := by
  induction gs with
  | nil => rfl
  | cons a t ih =>
    have hglast : g.getLast? ≠ none := by
      cases g with
      | nil => exact absurd rfl hg
      | cons c cs => simp
    have hJ : joinChar sep (t ++ [g]) ≠ [] := by
      intro he
      have h2 := ih
      rw [he] at h2
      simp only [List.getLast?_nil] at h2
      exact hglast h2.symm
    rw [List.cons_append, joinChar_cons_of_ne sep a (by simp),
      getLast?_append_right a (by simp),
      show sep :: joinChar sep (t ++ [g]) = [sep] ++ joinChar sep (t ++ [g]) from rfl,
      getLast?_append_right [sep] hJ]
    exact ih

theorem pair_ne_nil (k v : List Char) : k ++ '=' :: v ≠ [] := by
  cases k <;> simp

theorem envPairStep_tame (kv : String × String) (h : envTame kv)
    (env : List (String × String)) :
    envPairStep env (kv.1.data ++ '=' :: kv.2.data) = envInsert kv.1 kv.2 env := by
  obtain ⟨h1, h2, h3, h4, h5, _, _⟩ := h
  have hpair : goTrimSpace (kv.1.data ++ '=' :: kv.2.data) = kv.1.data ++ '=' :: kv.2.data := by
    rw [goTrimSpace_eq_goTrim]
    apply goTrim_eq_self
    · intro c hc
      rcases hk : kv.1.data with _ | ⟨a, t⟩
      · rw [hk] at hc
        simp only [List.nil_append, List.head?_cons, Option.some_inj] at hc
        rw [← hc]
        decide
      · rw [hk, List.cons_append, List.head?_cons, Option.some_inj] at hc
        have ha := head_not_space_of_trimSpace_eq h4 (c := a) (by rw [hk]; rfl)
        rw [← hc]
        exact ha
    · intro c hc
      rcases hv : kv.2.data with _ | ⟨b, u⟩
      · rw [hv] at hc
        rw [getLast?_append_right kv.1.data (y := ['=']) (by simp)] at hc
        simp only [List.getLast?_singleton, Option.some_inj] at hc
        rw [← hc]
        decide
      · have hvne : kv.2.data ≠ [] := by rw [hv]; simp
        rw [getLast?_append_right kv.1.data (y := '=' :: kv.2.data) (by simp),
          show ('=' :: kv.2.data) = ['='] ++ kv.2.data from rfl,
          getLast?_append_right ['='] hvne] at hc
        exact getLast_not_space_of_trimSpace_eq h5 hc
  have hemp : ((kv.1.data ++ '=' :: kv.2.data).isEmpty = true) = False := by
    rcases hk : kv.1.data with _ | ⟨a, t⟩ <;> simp
  unfold envPairStep
  dsimp only
  rw [hpair, if_neg (by rw [hemp]; exact id)]
  rw [splitChar_append_of_not_mem _ h3]
  rcases hsv : splitChar '=' kv.2.data with _ | ⟨r0, rrest⟩
  · exact absurd hsv (splitChar_ne_nil '=' kv.2.data)
  · show envInsert (String.mk (goTrimSpace kv.1.data))
      (String.mk (goTrimSpace (joinChar '=' (r0 :: rrest)))) env = envInsert kv.1 kv.2 env
    rw [← hsv, joinChar_splitChar, h4, h5]

/-- C4 (counterexample).  The mapping `{A ↦ "b,c"}` does not survive
the round trip: `formatEnvironment` renders it as `A=b,c`, and
`parseEnvironment` splits at the comma, losing the tail — the
recovered mapping sends `A` to `"b"`. -/
theorem c4_counterexample :
    parseEnvironment (formatEnvironment [("A", "b,c")]) [] = [("A", "b")] ∧
    ¬ (∀ k : String,
        List.lookup k (parseEnvironment (formatEnvironment [("A", "b,c")]) []) =
          List.lookup k [("A", "b,c")]) := by
  refine ⟨by decide, fun h => ?_⟩
  have h2 := h "A"
  rw [show parseEnvironment (formatEnvironment [("A", "b,c")]) [] = [("A", "b")] by decide]
    at h2
  exact absurd h2 (by decide)

/-- C4 (amended).  For every environment mapping whose keys and values
are *tame* — no comma in keys or values, no `'='` in keys, keys and
values invariant under `TrimSpace`, keys not starting and values not
ending with a quote character — parsing the output of
`formatEnvironment` into an empty map recovers a mapping with the same
lookups, regardless of the order in which the map was serialized
(quantified as: any permutation `l2` of the unique-key association
list `l`).  Without the tameness restriction the claim fails — see the
counterexample. -/
theorem c4_env_roundtrip :
    ∀ (l l2 : List (String × String)), l.Perm l2 →
      (l.map Prod.fst).Nodup → (∀ kv ∈ l, envTame kv) →
      ∀ k : String,
        List.lookup k (parseEnvironment (formatEnvironment l2) []) = List.lookup k l := by
  intro l l2 hp hnd ht k
  have hnd2 : (l2.map Prod.fst).Nodup := ((hp.map Prod.fst).nodup_iff).mp hnd
  have ht2 : ∀ kv ∈ l2, envTame kv := fun kv hkv => ht kv (hp.symm.subset hkv)
  rw [perm_lookup hp hnd k]
  cases l2 with
  | nil => rw [show parseEnvironment (formatEnvironment []) [] = [] from rfl]
  | cons kv0 rest =>
    show List.lookup k (parseEnvCore (goTrim isQuoteChar
      (formatEnvironment (kv0 :: rest)).data) []) = _
    have hdata : (formatEnvironment (kv0 :: rest)).data =
        joinChar ',' ((kv0 :: rest).map fun kv => kv.1.data ++ '=' :: kv.2.data) := rfl
    rw [hdata]
    have hp0 : kv0.1.data ++ '=' :: kv0.2.data ≠ [] := pair_ne_nil kv0.1.data kv0.2.data
    have htrim : goTrim isQuoteChar
        (joinChar ',' ((kv0 :: rest).map fun kv => kv.1.data ++ '=' :: kv.2.data)) =
        joinChar ',' ((kv0 :: rest).map fun kv => kv.1.data ++ '=' :: kv.2.data) := by
      apply goTrim_eq_self
      · intro c hc
        rw [List.map_cons, joinChar_head? ',' _ hp0] at hc
        obtain ⟨_, _, _, h4, _, h6, _⟩ := ht2 kv0 (by simp)
        rcases hk : kv0.1.data with _ | ⟨a, t⟩
        · rw [hk] at hc
          simp only [List.nil_append, List.head?_cons, Option.some_inj] at hc
          rw [← hc]
          decide
        · rw [hk, List.cons_append, List.head?_cons, Option.some_inj] at hc
          rw [hk] at h6
          have h6' : (! isQuoteChar a) = true := h6
          rw [← hc]
          simpa using h6'
      · intro c hc
        rcases List.eq_nil_or_concat (kv0 :: rest) with he | ⟨L, b, hLb⟩
        · simp at he
        · simp only [List.concat_eq_append] at hc hLb
          rw [hLb, List.map_append, List.map_singleton,
            joinChar_getLast? ',' _ (pair_ne_nil b.1.data b.2.data)] at hc
          obtain ⟨_, _, _, _, h5, _, h7⟩ := ht2 b (by rw [hLb]; simp)
          rcases hv : b.2.data with _ | ⟨x, u⟩
          · rw [hv] at hc
            rw [getLast?_append_right b.1.data (y := ['=']) (by simp)] at hc
            simp only [List.getLast?_singleton, Option.some_inj] at hc
            rw [← hc]
            decide
          · have hvne : b.2.data ≠ [] := by rw [hv]; simp
            rw [getLast?_append_right b.1.data (y := '=' :: b.2.data) (by simp),
              show ('=' :: b.2.data) = ['='] ++ b.2.data from rfl,
              getLast?_append_right ['='] hvne] at hc
            rcases hg : b.2.data.getLast? with _ | d
            · rw [hg] at hc
              cases hc
            · rw [hg] at hc h7
              have h7' : (! isQuoteChar d) = true := h7
              rw [← Option.some_inj.mp hc]
              simpa using h7'
    rw [htrim]
    show List.lookup k ((splitChar ','
      (joinChar ',' ((kv0 :: rest).map fun kv => kv.1.data ++ '=' :: kv.2.data))).foldl
        envPairStep []) = _
    rw [splitChar_joinChar (by simp) ?commas]
    case commas =>
      intro g hg hmem
      obtain ⟨kv, hkv, rfl⟩ := List.mem_map.mp hg
      obtain ⟨h1, h2, _, _, _, _, _⟩ := ht2 kv hkv
      rcases List.mem_append.mp hmem with hin | hin
      · exact h1 hin
      · rcases List.mem_cons.mp hin with he | hin
        · cases he
        · exact h2 hin
    rw [List.foldl_map]
    have hfold : ∀ (l3 : List (String × String)), (∀ kv ∈ l3, envTame kv) →
        ∀ e0 : List (String × String),
        l3.foldl (fun e kv => envPairStep e (kv.1.data ++ '=' :: kv.2.data)) e0 =
          l3.foldl (fun e kv => envInsert kv.1 kv.2 e) e0 := by
      intro l3
      induction l3 with
      | nil => intro _ e0; rfl
      | cons a t ih =>
        intro htame e0
        rw [List.foldl_cons, List.foldl_cons, envPairStep_tame a (htame a (by simp))]
        exact ih (fun kv hkv => htame kv (by simp [hkv])) _
    rw [hfold (kv0 :: rest) ht2 [], lookup_foldl_insert (kv0 :: rest) [] k hnd2,
      show List.lookup k ([] : List (String × String)) = none from rfl, Option.or_none]

/-- Witness for `c4_env_roundtrip` at a two-entry mapping serialized
in the opposite order. -/
theorem c4_env_roundtrip_witness :
    List.lookup "A" (parseEnvironment (formatEnvironment [("B", "2"), ("A", "1")]) []) =
      List.lookup "A" [("A", "1"), ("B", "2")] := by
  exact c4_env_roundtrip [("A", "1"), ("B", "2")] [("B", "2"), ("A", "1")]
    (List.Perm.swap _ _ _) (by decide) (by decide) "A"

/-! ## C1: the save transaction -/

theorem splitChar_unlines {ls : List (List Char)} (h : ∀ l ∈ ls, '\n' ∉ l) :
    splitChar '\n' (unlinesL ls) = ls ++ [[]] := by
  induction ls with
  | nil => rfl
  | cons l rest ih =>
    show splitChar '\n' (l ++ '\n' :: unlinesL rest) = _
    rw [splitChar_append_of_not_mem _ (h l (by simp)), ih (fun x hx => h x (by simp [hx]))]
    rfl

theorem rawSegments_unlines {ls : List (List Char)} (h : ∀ l ∈ ls, '\n' ∉ l) :
    rawSegments (unlinesL ls) = ls := by
  unfold rawSegments
  rw [splitChar_unlines h]
  dsimp only
  rw [getLast?_append_right ls (y := [[]]) (by simp)]
  rw [if_pos (show ([[]] : List (List Char)).getLast? = some [] from rfl),
    List.dropLast_concat]

theorem takeWhile_all_true {α : Type} {p : α → Bool} {ls : List α}
    (h : ∀ l ∈ ls, p l = true) : ls.takeWhile p = ls := by
  induction ls with
  | nil => rfl
  | cons a t ih =>
    rw [List.takeWhile_cons, h a (by simp), ih fun x hx => h x (by simp [hx])]
    rfl

theorem map_dropCR_eq {ls : List (List Char)} (h : ∀ l ∈ ls, l.getLast? ≠ some '\r') :
    ls.map dropCR = ls := by
  induction ls with
  | nil => rfl
  | cons a t ih =>
    rw [List.map_cons, show dropCR a = a from if_neg (h a (by simp)),
      ih fun x hx => h x (by simp [hx])]

theorem scanLines_unlines {ls : List (List Char)} (h : ∀ l ∈ ls, lineOK l) :
    scanLines (unlinesL ls) = (ls, false) := by
  unfold scanLines
  rw [rawSegments_unlines (fun l hl => (h l hl).1)]
  dsimp only
  rw [takeWhile_all_true (fun l hl => decide_eq_true (h l hl).2.1),
    map_dropCR_eq (fun l hl => (h l hl).2.2), List.any_eq_false.mpr
      (fun l hl => by simpa using Nat.not_le.mpr (h l hl).2.1)]

theorem map_mk_map_data (ls : List String) : (ls.map String.data).map String.mk = ls := by
  induction ls with
  | nil => rfl
  | cons s t ih =>
    rw [List.map_cons, List.map_cons, ih]

theorem loadConfig_serialize {cfg : Config} (h : serializeOK cfg) (path : String) :
    loadConfigText path (serializeConfig cfg) =
      .ok { path := path, programs := loadConfigLines ((serializeLines cfg).map String.data),
            rawLines := serializeLines cfg } := by
  unfold loadConfigText serializeConfig
  have hOK : ∀ l ∈ (serializeLines cfg).map String.data, lineOK l := by
    intro l hl
    obtain ⟨s, hs, rfl⟩ := List.mem_map.mp hl
    exact h s hs
  rw [show (String.mk (unlinesL ((serializeLines cfg).map String.data))).data =
      unlinesL ((serializeLines cfg).map String.data) from rfl, scanLines_unlines hOK]
  dsimp only
  rw [map_mk_map_data, if_neg (by simp)]

theorem goHasPrefix_append_self (p x : List Char) : goHasPrefix p (p ++ x) = true := by
  induction p with
  | nil => rfl
  | cons c cs ih => simp [goHasPrefix, ih]

theorem goHasSuffix_concat (x : List Char) (c : Char) : goHasSuffix (x ++ [c]) [c] = true := by
  unfold goHasSuffix
  rw [List.reverse_append]
  simp [goHasPrefix]

theorem head?_dropTrailing_cons {p : Char → Bool} {c : Char} (l : List Char)
    (hc : p c = false) : (dropTrailing p (c :: l)).head? = some c := by
  unfold dropTrailing
  rw [List.reverse_cons, List.dropWhile_append]
  by_cases he : (l.reverse.dropWhile p).isEmpty
  · rw [if_pos he]
    simp [List.dropWhile_cons, hc]
  · rw [if_neg he]
    rw [List.reverse_append]
    simp

theorem head?_goTrimSpace_cons {c : Char} (l : List Char) (hc : goIsSpace c = false) :
    (goTrimSpace (c :: l)).head? = some c := by
  unfold goTrimSpace
  rw [List.dropWhile_cons]
  simp only [hc, Bool.false_eq_true, if_false]
  exact head?_dropTrailing_cons l hc

theorem lineHeaderOf_cons {c : Char} (t : List Char) (hsp : goIsSpace c = false)
    (hbr : c ≠ '[') : lineHeaderOf (c :: t) = none := by
  unfold lineHeaderOf
  have hh : (goTrimSpace (c :: t)).head? = some c := head?_goTrimSpace_cons t hsp
  have hpre : goHasPrefix "[program:".data (goTrimSpace (c :: t)) = false := by
    rcases hg : goTrimSpace (c :: t) with _ | ⟨a, r⟩
    · rfl
    · rw [hg, List.head?_cons, Option.some_inj] at hh
      have hne : ('[' : Char) ≠ a := by
        rw [hh]
        exact fun he => hbr he.symm
      show goHasPrefix ('[' :: "program:".data) (a :: r) = false
      simp [goHasPrefix, hne]
  simp [isProgramHeader, hpre]

theorem lineHeaderOf_header (name : String) :
    lineHeaderOf ("[program:" ++ name ++ "]").data = some name := by
  have hdata : ("[program:" ++ name ++ "]").data =
      "[program:".data ++ (name.data ++ [']']) := by
    rw [String.data_append, String.data_append]
    simp [show ("]" : String).data = [']'] from rfl]
  unfold lineHeaderOf
  rw [hdata]
  have htrim : goTrimSpace ("[program:".data ++ (name.data ++ [']'])) =
      "[program:".data ++ (name.data ++ [']']) := by
    rw [goTrimSpace_eq_goTrim]
    apply goTrim_eq_self
    · intro c hc
      rw [head?_append_left _ (by decide),
        show ("[program:".data).head? = some '[' from rfl] at hc
      cases hc
      decide
    · intro c hc
      rw [getLast?_append_right _ (y := name.data ++ [']']) (by cases name.data <;> simp),
        getLast?_append_right name.data (y := [']']) (by simp),
        show ([']'] : List Char).getLast? = some ']' from rfl] at hc
      cases hc
      decide
  rw [htrim]
  have hpre : isProgramHeader ("[program:".data ++ (name.data ++ [']'])) = true := by
    unfold isProgramHeader
    rw [goHasPrefix_append_self,
      show "[program:".data ++ (name.data ++ [']']) =
        ("[program:".data ++ name.data) ++ [']'] by simp,
      show ("]" : String).data = [']'] from rfl, goHasSuffix_concat]
    rfl
  rw [if_pos hpre]
  unfold headerName
  rw [show (9 : Nat) = ("[program:".data).length from rfl, List.drop_left,
    List.dropLast_concat]

theorem lineHeaderOf_keyline {pre : String} (c : Char) (t : List Char)
    (hdt : pre.data = c :: t) (hsp : goIsSpace c = false) (hbr : c ≠ '[')
    (x : String) : lineHeaderOf (pre ++ x).data = none := by
  rw [String.data_append, hdt, List.cons_append]
  exact lineHeaderOf_cons _ hsp hbr

theorem headerNamesOf_programLines (p : ProcessConfig) :
    headerNamesOf ((programLines p).map String.data) = [p.name] := by
  have hseg : ∀ (cond : Prop) (inst : Decidable cond) (s : String),
      lineHeaderOf s.data = none →
      List.filterMap lineHeaderOf ((if cond then [s] else []).map String.data) =
        ([] : List String) := by
    intro cond inst s hs
    by_cases hc : cond
    · rw [if_pos hc]
      simp [hs]
    · rw [if_neg hc]
      rfl
  have hk0 : ∀ x : String, lineHeaderOf ("command=" ++ x).data = none := fun x =>
    lineHeaderOf_keyline 'c' "ommand=".data rfl (by decide) (by decide) x
  have hk1 : ∀ x : String, lineHeaderOf ("directory=" ++ x).data = none := fun x =>
    lineHeaderOf_keyline 'd' "irectory=".data rfl (by decide) (by decide) x
  have hk2 : ∀ x : String, lineHeaderOf ("user=" ++ x).data = none := fun x =>
    lineHeaderOf_keyline 'u' "ser=".data rfl (by decide) (by decide) x
  have hk3 : ∀ x : String, lineHeaderOf ("autostart=" ++ x).data = none := fun x =>
    lineHeaderOf_keyline 'a' "utostart=".data rfl (by decide) (by decide) x
  have hk4 : ∀ x : String, lineHeaderOf ("autorestart=" ++ x).data = none := fun x =>
    lineHeaderOf_keyline 'a' "utorestart=".data rfl (by decide) (by decide) x
  have hk5 : ∀ x : String, lineHeaderOf ("startsecs=" ++ x).data = none := fun x =>
    lineHeaderOf_keyline 's' "tartsecs=".data rfl (by decide) (by decide) x
  have hk6 : ∀ x : String, lineHeaderOf ("startretries=" ++ x).data = none := fun x =>
    lineHeaderOf_keyline 's' "tartretries=".data rfl (by decide) (by decide) x
  have hk7 : ∀ x : String, lineHeaderOf ("stdout_logfile=" ++ x).data = none := fun x =>
    lineHeaderOf_keyline 's' "tdout_logfile=".data rfl (by decide) (by decide) x
  have hk8 : ∀ x : String, lineHeaderOf ("stderr_logfile=" ++ x).data = none := fun x =>
    lineHeaderOf_keyline 's' "tderr_logfile=".data rfl (by decide) (by decide) x
  have hk9 : ∀ x : String, lineHeaderOf ("stdout_logfile_maxbytes=" ++ x).data = none := fun x =>
    lineHeaderOf_keyline 's' "tdout_logfile_maxbytes=".data rfl (by decide) (by decide) x
  have hk10 : ∀ x : String, lineHeaderOf ("stdout_logfile_backups=" ++ x).data = none := fun x =>
    lineHeaderOf_keyline 's' "tdout_logfile_backups=".data rfl (by decide) (by decide) x
  have hk11 : ∀ x : String, lineHeaderOf ("stderr_logfile_maxbytes=" ++ x).data = none := fun x =>
    lineHeaderOf_keyline 's' "tderr_logfile_maxbytes=".data rfl (by decide) (by decide) x
  have hk12 : ∀ x : String, lineHeaderOf ("stderr_logfile_backups=" ++ x).data = none := fun x =>
    lineHeaderOf_keyline 's' "tderr_logfile_backups=".data rfl (by decide) (by decide) x
  have hk13 : ∀ x : String, lineHeaderOf ("environment=" ++ x).data = none := fun x =>
    lineHeaderOf_keyline 'e' "nvironment=".data rfl (by decide) (by decide) x
  have hk14 : ∀ x : String, lineHeaderOf ("priority=" ++ x).data = none := fun x =>
    lineHeaderOf_keyline 'p' "riority=".data rfl (by decide) (by decide) x
  have hk15 : ∀ x : String, lineHeaderOf ("stopsignal=" ++ x).data = none := fun x =>
    lineHeaderOf_keyline 's' "topsignal=".data rfl (by decide) (by decide) x
  have hk16 : ∀ x : String, lineHeaderOf ("stopwaitsecs=" ++ x).data = none := fun x =>
    lineHeaderOf_keyline 's' "topwaitsecs=".data rfl (by decide) (by decide) x
  have g0 : List.filterMap lineHeaderOf
      ((if p.command ≠ "" then ["command=" ++ p.command] else []).map String.data) = [] :=
    hseg _ _ _ (hk0 _)
  have g1 : List.filterMap lineHeaderOf
      ((if p.directory ≠ "" then ["directory=" ++ p.directory] else []).map String.data) = [] :=
    hseg _ _ _ (hk1 _)
  have g2 : List.filterMap lineHeaderOf
      ((if p.user ≠ "" then ["user=" ++ p.user] else []).map String.data) = [] :=
    hseg _ _ _ (hk2 _)
  have g3 : List.filterMap lineHeaderOf
      ((if p.startSecs > 0 then ["startsecs=" ++ toString p.startSecs] else []).map String.data) = [] :=
    hseg _ _ _ (hk5 _)
  have g4 : List.filterMap lineHeaderOf
      ((if p.startRetries > 0 then ["startretries=" ++ toString p.startRetries] else []).map String.data) = [] :=
    hseg _ _ _ (hk6 _)
  have g5 : List.filterMap lineHeaderOf
      ((if p.stdoutLogfile ≠ "" then ["stdout_logfile=" ++ p.stdoutLogfile] else []).map String.data) = [] :=
    hseg _ _ _ (hk7 _)
  have g6 : List.filterMap lineHeaderOf
      ((if p.stderrLogfile ≠ "" then ["stderr_logfile=" ++ p.stderrLogfile] else []).map String.data) = [] :=
    hseg _ _ _ (hk8 _)
  have g7 : List.filterMap lineHeaderOf
      ((if p.stdoutLogfileMaxBytes > 0 then ["stdout_logfile_maxbytes=" ++ formatBytes p.stdoutLogfileMaxBytes] else []).map String.data) = [] :=
    hseg _ _ _ (hk9 _)
  have g8 : List.filterMap lineHeaderOf
      ((if p.stdoutLogfileBackups > 0 then ["stdout_logfile_backups=" ++ toString p.stdoutLogfileBackups] else []).map String.data) = [] :=
    hseg _ _ _ (hk10 _)
  have g9 : List.filterMap lineHeaderOf
      ((if p.stderrLogfileMaxBytes > 0 then ["stderr_logfile_maxbytes=" ++ formatBytes p.stderrLogfileMaxBytes] else []).map String.data) = [] :=
    hseg _ _ _ (hk11 _)
  have g10 : List.filterMap lineHeaderOf
      ((if p.stderrLogfileBackups > 0 then ["stderr_logfile_backups=" ++ toString p.stderrLogfileBackups] else []).map String.data) = [] :=
    hseg _ _ _ (hk12 _)
  have g11 : List.filterMap lineHeaderOf
      ((if p.environment ≠ [] then ["environment=" ++ formatEnvironment p.environment] else []).map String.data) = [] :=
    hseg _ _ _ (hk13 _)
  have g12 : List.filterMap lineHeaderOf
      ((if p.priority > 0 then ["priority=" ++ toString p.priority] else []).map String.data) = [] :=
    hseg _ _ _ (hk14 _)
  have g13 : List.filterMap lineHeaderOf
      ((if p.stopSignal ≠ "" then ["stopsignal=" ++ p.stopSignal] else []).map String.data) = [] :=
    hseg _ _ _ (hk15 _)
  have g14 : List.filterMap lineHeaderOf
      ((if p.stopWaitSecs > 0 then ["stopwaitsecs=" ++ toString p.stopWaitSecs] else []).map String.data) = [] :=
    hseg _ _ _ (hk16 _)
  have ha1 : lineHeaderOf ("autostart=" ++ goBool p.autostart).data = none := hk3 _
  have ha2 : lineHeaderOf ("autorestart=" ++ goBool p.autorestart).data = none := hk4 _
  unfold programLines headerNamesOf
  simp only [List.map_append, List.filterMap_append, g0, g1, g2, g3, g4, g5, g6, g7, g8, g9, g10, g11, g12, g13, g14,
    List.map_cons, List.map_nil, List.filterMap_cons, lineHeaderOf_header, ha1, ha2,
    List.filterMap_nil, List.append_nil, List.nil_append]

theorem headerNamesOf_serializeBlocks (ps : List ProcessConfig) :
    headerNamesOf ((serializeBlocks ps).map String.data) = namesOfList ps := by
  induction ps with
  | nil => rfl
  | cons p rest ih =>
    cases rest with
    | nil =>
      show headerNamesOf ((programLines p).map String.data) = [p.name]
      exact headerNamesOf_programLines p
    | cons q rest2 =>
      show headerNamesOf
          ((programLines p ++ "" :: serializeBlocks (q :: rest2)).map String.data) = _
      unfold headerNamesOf
      rw [List.map_append, List.filterMap_append, List.map_cons, List.filterMap_cons]
      have hempty : lineHeaderOf ("" : String).data = none := rfl
      rw [hempty]
      rw [show List.filterMap lineHeaderOf ((programLines p).map String.data) = [p.name]
        from headerNamesOf_programLines p]
      rw [show List.filterMap lineHeaderOf ((serializeBlocks (q :: rest2)).map String.data) =
        namesOfList (q :: rest2) from ih]
      rfl

theorem names_reload (cfg : Config) :
    namesOfList (loadConfigLines ((serializeLines cfg).map String.data)) =
      namesOfList cfg.programs := by
  rw [loadConfigLines_names]
  unfold serializeLines
  exact headerNamesOf_serializeBlocks cfg.programs

/-- C1.  When the editor text parses, the written file reloads cleanly
(`serializeOK` makes every written line survive the scanner), and the
subsequent `Reread` fails, `saveProcess` surfaces the `Reread` error,
ends the transaction in the list view, keeps the written file content,
and its in-memory configuration is exactly the re-parse of the written
file — whose program names are those of the post-edit configuration;
in add mode these are the pre-edit names plus the new definition's
name, so the in-memory state reflects the written definition and
nothing is rolled back. -/
theorem c1_saveProcess (m : UiModel) (editorText : String) (p : ProcessConfig)
    (e : String) (updateErr : Option String)
    (hp : parseConfigText editorText = Except.ok p)
    (hok : serializeOK (saveApply m p)) :
    (saveProcess m editorText (some e) updateErr).err = some e ∧
    (saveProcess m editorText (some e) updateErr).mode = Mode.list ∧
    (saveProcess m editorText (some e) updateErr).fileContent =
      serializeConfig (saveApply m p) ∧
    loadConfigText m.configPath (saveProcess m editorText (some e) updateErr).fileContent =
      Except.ok (saveProcess m editorText (some e) updateErr).config ∧
    namesOfList (saveProcess m editorText (some e) updateErr).config.programs =
      namesOfList (saveApply m p).programs ∧
    (m.mode = Mode.add →
      namesOfList (saveProcess m editorText (some e) updateErr).config.programs =
        namesOfList m.config.programs ++ [p.name]) := by
  have hsp : saveProcess m editorText (some e) updateErr =
      { m with
        config := { path := m.configPath,
                    programs :=
                      loadConfigLines ((serializeLines (saveApply m p)).map String.data),
                    rawLines := serializeLines (saveApply m p) },
        fileContent := serializeConfig (saveApply m p),
        err := some e, mode := Mode.list } := by
    unfold saveProcess
    rw [hp]
    dsimp only
    rw [loadConfig_serialize hok m.configPath]
  rw [hsp]
  refine ⟨rfl, rfl, rfl, ?_, ?_, ?_⟩
  · exact loadConfig_serialize hok m.configPath
  · exact names_reload (saveApply m p)
  · intro hadd
    show namesOfList (loadConfigLines ((serializeLines (saveApply m p)).map String.data)) = _
    rw [names_reload]
    unfold saveApply
    rw [if_pos hadd]
    simp [addProgram, namesOfList]

/-- The pre-edit model state of the witness: empty configuration, add
mode. -/
def c1m : UiModel :=
  { config := { path := "/etc/god.conf", programs := [], rawLines := [] },
    configPath := "/etc/god.conf", fileContent := "", mode := Mode.add,
    err := none, selected := none }

/-- The definition the witness's editor text parses to. -/
def c1p : ProcessConfig := { name := "a", command := "/bin/a" }

theorem c1_saveProcess_witness :
    parseConfigText "[program:a]\ncommand=/bin/a\n" = Except.ok c1p ∧
    serializeOK (saveApply c1m c1p) ∧
    (saveProcess c1m "[program:a]\ncommand=/bin/a\n" (some "reread failed") none).err =
      some "reread failed" ∧
    (saveProcess c1m "[program:a]\ncommand=/bin/a\n" (some "reread failed") none).mode =
      Mode.list ∧
    namesOfList (saveProcess c1m "[program:a]\ncommand=/bin/a\n"
        (some "reread failed") none).config.programs =
      namesOfList c1m.config.programs ++ ["a"] := by
  have hp : parseConfigText "[program:a]\ncommand=/bin/a\n" = Except.ok c1p := by rfl
  have hok : serializeOK (saveApply c1m c1p) := by
    unfold serializeOK lineOK
    decide
  have h := c1_saveProcess c1m "[program:a]\ncommand=/bin/a\n" c1p "reread failed" none hp hok
  exact ⟨hp, hok, h.1, h.2.1, h.2.2.2.2.2 rfl⟩

end God
